import Mathlib

set_option maxRecDepth 100000

/-!
Verification of the JobInsights data-processing pipeline as documented in the
repository: seniority classification (docs/data-analysis/seniority-detection.md),
fuzzy deduplication (docs/data-cleaning/deduplication.md), keyword tagging
(the SkillKeywordExtractor snippet), TF-IDF embedding generation
(the JobEmbeddingGenerator snippet) and the certification-keyword filter
(docs/data-analysis/embeddings.md, docs/data-analysis/cluster-analysis.md).

The pipeline fragments are Python (pandas / scikit-learn); they are embedded
shallowly: dataframes become lists of records with their positional index as
label, numpy float arrays become lists of real numbers with exact arithmetic,
Python functions become Lean functions, and operations that can raise
(IndexError, ValueError) return Option/Except.
-/

/-! ## String helpers

Python's `needle in haystack` substring test and `str.split()`, used by the
classifier keyword matching and by SkillKeywordExtractor. -/

/-- The needle is an initial run of the haystack (character lists). -/
def matchHere : List Char → List Char → Bool
  | [], _ => true
  | _ :: _, [] => false
  | a :: as, b :: bs => a = b && matchHere as bs

/-- The needle occurs somewhere in the haystack (character lists). -/
def hasSub (needle : List Char) : List Char → Bool
  | [] => needle.isEmpty
  | c :: rest => matchHere needle (c :: rest) || hasSub needle rest

/-- Python's `needle in hay` substring test. -/
def strContains (hay needle : String) : Bool :=
  hasSub needle.toList hay.toList

/-- Python's `str.lower()`. -/
def lowerStr (s : String) : String :=
  String.mk (s.data.map Char.toLower)

/-- Splits a character list on spaces. -/
def splitChars : List Char → List (List Char)
  | [] => [[]]
  | c :: rest =>
    if c = ' ' then [] :: splitChars rest
    else
      match splitChars rest with
      | [] => [[c]]
      | w :: ws => (c :: w) :: ws

/-- Python's `s.split()` on blanks, specialised to the single-space separator
used by all texts considered here: empty fragments are dropped. -/
def splitWords (s : String) : List String :=
  ((splitChars s.data).map String.mk).filter (fun w => w ≠ "")

/-! ## Seniority classifier

Embeds the "Hierarchy of Truth" of docs/data-analysis/seniority-detection.md:
the keyword dictionaries of its table (lowercase substring matching over
`jobType` for the student/intern signals and over `title` for the rest) and
the strict five-level priority of the classifier snippet
(etl/pipeline/classifier.py): contract override, management, senior, junior,
default MID. -/

inductive CareerLevel where
  | entry | mid | senior | management
deriving DecidableEq, Repr

/-- Student / intern contract signals (keyword dictionary, matched against the
contract type). -/
def studentKeywords : List String :=
  ["praktikum", "student", "werkstudent", "trainee", "ausbildung",
   "bachelor", "master", "referendariat"]

/-- Management signals (keyword dictionary). The dictionary lists `teamlead`;
the conflict-resolution tables of the same document and of the
data-inconsistencies page show the spaced spelling "Team Lead" firing the
management signal as well ("Team Lead Machine Learning" and "Junior Team Lead"
are both classified MANAGEMENT), so both spellings are included. -/
def managementKeywords : List String :=
  ["head of", "director", "vp", "chief", "c-level", "teamlead", "team lead",
   "leiter"]

/-- Senior signals (keyword dictionary). -/
def seniorKeywords : List String :=
  ["senior", "lead", "principal", "staff", "expert", "architect"]

/-- Junior signals (keyword dictionary). -/
def juniorKeywords : List String :=
  ["junior", "entry", "graduate", "apprentice"]

/-- A field matches a keyword dictionary when it contains one of its entries,
case-insensitively. -/
def matchesAny (field : String) (keywords : List String) : Bool :=
  keywords.any (fun k => strContains (lowerStr field) k)

/-- Contract-type student/intern signal (priority 1). -/
def studentSignal (contractType : String) : Bool :=
  matchesAny contractType studentKeywords

/-- Title management signal (priority 2). -/
def managementSignal (title : String) : Bool :=
  matchesAny title managementKeywords

/-- Title senior signal (priority 3). -/
def seniorSignal (title : String) : Bool :=
  matchesAny title seniorKeywords

/-- Title junior signal (priority 4). -/
def juniorSignal (title : String) : Bool :=
  matchesAny title juniorKeywords

/-- The classifier: strict priority resolution of the detected signals, as in
the classifier.py snippet extended with the documented priority-4 junior rule
(Priority 5 is the MID default). -/
def classifySeniority (title contractType : String) : CareerLevel :=
  if studentSignal contractType then .entry
  else if managementSignal title then .management
  else if seniorSignal title then .senior
  else if juniorSignal title then .entry
  else .mid

/-! ## SkillKeywordExtractor (keyword tagging)

Embeds `SkillKeywordExtractor._fuzzy_match` and `tag_job_with_keywords`:
substring test first, then the partial word-overlap ratio against the 0.8
threshold. A missing (NaN) description is `none`. -/

/-- Threshold of `_fuzzy_match` (its `threshold: float = 0.8` parameter). -/
def fuzzyThreshold : ℚ := 8 / 10

/-- `_fuzzy_match(keyword, text)`: exact substring match of the lowered
keyword in the text, else the fraction of keyword words that overlap some text
word (either containing it or contained in it) compared to the threshold.
`set(...)` on the word lists is `List.eraseDups`. -/
def fuzzyMatch (keyword text : String) : Bool :=
  let keywordWords := (splitWords (lowerStr keyword)).eraseDups
  let textWords := (splitWords text).eraseDups
  if strContains text (lowerStr keyword) then true
  else
    let nMatches := keywordWords.countP (fun kw =>
      textWords.any (fun tw => strContains tw kw || strContains kw tw))
    decide (fuzzyThreshold ≤ (nMatches : ℚ) / (keywordWords.length : ℚ))

/-- `tag_job_with_keywords(job_description, cluster_keywords)`: `[]` when the
description is NaN, otherwise the cluster keywords whose fuzzy match against
the lowered description succeeds, in the order supplied. -/
def tagJobWithKeywords (jobDescription : Option String)
    (clusterKeywords : List String) : List String :=
  match jobDescription with
  | none => []
  | some d => clusterKeywords.filter (fun kw => fuzzyMatch kw (lowerStr d))

/-! ## Certification-keyword filter

Embeds the certification filtering rules documented for cluster_156
(docs/data-analysis/embeddings.md, Certification Filtering; the Qualifications
Filter of docs/data-analysis/cluster-analysis.md): accept a candidate token
only when it is an uppercase acronym of 3 to 8 characters and is not on the
manual company-name blacklist. -/

/-- The documented company-name blacklist examples (SAP, IBM, DELL). -/
def companyBlocklist : List String := ["SAP", "IBM", "DELL"]

/-- Uppercase acronym of 3 to 8 characters. -/
def isAcronym (token : String) : Bool :=
  3 ≤ token.length && token.length ≤ 8 && token.toList.all Char.isUpper

/-- A candidate certification-cluster token is emitted iff it is an acronym
and is not blocklisted. -/
def certAccepted (token : String) (blocklist : List String) : Bool :=
  isAcronym token && !blocklist.contains token

/-! ## Real-vector helpers

Exact-real embedding of the numpy / scikit-learn vector operations. -/

/-- Squared euclidean norm of a vector. -/
def sumSqR (v : List ℝ) : ℝ := (v.map (fun x => x * x)).sum

/-- Dot product of two vectors. -/
def dotR (u v : List ℝ) : ℝ := (List.zipWith (· * ·) u v).sum

/-- Row L2 normalization as scikit-learn performs it (normalize with norm
l2): a zero row is left unchanged, any other row is divided by its euclidean
norm. -/
noncomputable def l2normalize (v : List ℝ) : List ℝ :=
  if sumSqR v = 0 then v else v.map (fun x => x / Real.sqrt (sumSqR v))

/-- Cosine similarity of two rows, as sklearn.metrics.pairwise
cosine_similarity computes it (zero rows give similarity 0, matching the
division-by-zero convention). -/
noncomputable def cosineSim (u v : List ℝ) : ℝ :=
  dotR u v / (Real.sqrt (sumSqR u) * Real.sqrt (sumSqR v))

/-! ## TfidfVectorizer

Shallow embedding of sklearn.feature_extraction.text.TfidfVectorizer as
configured by the repository (smooth_idf, use_idf, norm l2, sublinear off).
A document enters as its token list (the output of the tokenizer, which for
the texts considered here is lowercasing and splitting on blanks); the
analyzer then produces the configured word n-grams. The english stop-word
list is carried as a parameter; none of its entries occur in the corpora
considered here. -/

structure TfidfParams where
  /-- max_features. -/
  maxFeatures : Nat
  /-- min_df: drop terms present in fewer documents. -/
  minDf : Nat
  /-- max_df numerator (max_df is maxDfNum / maxDfDen of the corpus size). -/
  maxDfNum : Nat
  /-- max_df denominator. -/
  maxDfDen : Nat
  /-- ngram_range lower bound. -/
  ngramLo : Nat
  /-- ngram_range upper bound. -/
  ngramHi : Nat
  /-- stop_words. -/
  stopWords : List String

/-- JobEmbeddingGenerator's vectorizer: max_features=725, min_df=2,
max_df=0.95, ngram_range=(1,2), stop_words english, norm l2, smooth idf. -/
def embedderParams : TfidfParams := ⟨725, 2, 19, 20, 1, 2, []⟩

/-- FuzzyDeduplicator's vectorizer: max_features=500, ngram_range=(1,3),
analyzer word, stop_words english, with sklearn defaults min_df=1,
max_df=1.0, norm l2, smooth idf. -/
def dedupVectorizerParams : TfidfParams := ⟨500, 1, 1, 1, 1, 3, []⟩

/-- Joins tokens with single blanks, as sklearn renders an n-gram. -/
def joinSpace (ws : List String) : String := String.intercalate " " ws

/-- All word n-grams of sizes lo..hi, shorter sizes first, each size in
positional order (sklearn _word_ngrams). -/
def ngramsOf (lo hi : Nat) (toks : List String) : List String :=
  (List.range' lo (hi + 1 - lo)).flatMap (fun k =>
    (List.range (toks.length + 1 - k)).map (fun i =>
      joinSpace ((toks.drop i).take k)))

/-- The analyzer: stop-word removal, then n-gram extraction. -/
def analyzeDoc (ps : TfidfParams) (toks : List String) : List String :=
  ngramsOf ps.ngramLo ps.ngramHi (toks.filter (fun t => !ps.stopWords.contains t))

/-- Document frequency of a term over the analyzed corpus. -/
def docFreq (analyzed : List (List String)) (t : String) : Nat :=
  analyzed.countP (fun d => d.contains t)

/-- Lexicographic order on character lists. -/
def charListLt : List Char → List Char → Bool
  | [], [] => false
  | [], _ :: _ => true
  | _ :: _, [] => false
  | a :: as, b :: bs => a < b || (a = b && charListLt as bs)

/-- Lexicographic order on strings (by code point, as Python sorts). -/
def strLt (a b : String) : Bool := charListLt a.data b.data

/-- Insertion into an alphabetically sorted list. -/
def insertSorted (s : String) : List String → List String
  | [] => [s]
  | t :: rest => if strLt s t then s :: t :: rest else t :: insertSorted s rest

/-- Alphabetical sort (sklearn sorts the learned vocabulary). -/
def sortStrs (l : List String) : List String := l.foldr insertSorted []

/-- Total corpus frequency of a term (used by the max_features cap). -/
def termTotalCount (analyzed : List (List String)) (t : String) : Nat :=
  (analyzed.map (fun d => d.count t)).sum

/-- Insertion into a list sorted by corpus frequency descending, ties to the
alphabetically earlier term. -/
def insertRanked (analyzed : List (List String)) (s : String) :
    List String → List String
  | [] => [s]
  | t :: rest =>
    if termTotalCount analyzed t < termTotalCount analyzed s ||
        (termTotalCount analyzed t = termTotalCount analyzed s && strLt s t) then
      s :: t :: rest
    else t :: insertRanked analyzed s rest

/-- sklearn's max_features limit: when more terms survive the document
frequency filters than allowed, only the most frequent `cap` terms are kept
(sorted back alphabetically). -/
def capFeatures (analyzed : List (List String)) (cap : Nat)
    (terms : List String) : List String :=
  if terms.length ≤ cap then terms
  else sortStrs ((terms.foldr (insertRanked analyzed) []).take cap)

/-- The fitted vocabulary: all distinct analyzed terms whose document
frequency lies within [min_df, max_df * n], alphabetically sorted, capped at
max_features. -/
def vocabulary (ps : TfidfParams) (docs : List (List String)) : List String :=
  let analyzed := docs.map (analyzeDoc ps)
  let n := docs.length
  let terms := sortStrs (analyzed.flatten.eraseDups)
  let kept := terms.filter (fun t =>
    decide (ps.minDf ≤ docFreq analyzed t) &&
      decide (docFreq analyzed t * ps.maxDfDen ≤ ps.maxDfNum * n))
  capFeatures analyzed ps.maxFeatures kept

/-- Smoothed inverse document frequency: ln((1 + n) / (1 + df)) + 1. -/
noncomputable def idfVal (analyzed : List (List String)) (n : Nat)
    (t : String) : ℝ :=
  Real.log ((1 + (n : ℝ)) / (1 + (docFreq analyzed t : ℝ))) + 1

/-- A document's raw tf-idf row over the fitted vocabulary. -/
noncomputable def tfidfRawRow (ps : TfidfParams) (docs : List (List String))
    (d : List String) : List ℝ :=
  let analyzed := docs.map (analyzeDoc ps)
  (vocabulary ps docs).map (fun t =>
    ((analyzeDoc ps d).count t : ℝ) * idfVal analyzed docs.length t)

/-- fit_transform: the l2-normalized tf-idf matrix of the corpus. -/
noncomputable def tfidfFitTransform (ps : TfidfParams)
    (docs : List (List String)) : List (List ℝ) :=
  docs.map (fun d => l2normalize (tfidfRawRow ps docs d))

/-! ## StandardScaler (normalize_embeddings)

Embeds `normalize_embeddings`, which the embedding notebook applies to the
fit_transform output to prepare the embeddings for clustering:
sklearn.preprocessing.StandardScaler (per-column z-scoring with the
population variance; a zero-variance column gets scale 1). -/

/-- Entry j of a row (0 outside the row). -/
def colGet (row : List ℝ) (j : Nat) : ℝ := row.getD j 0

/-- Column mean over the matrix rows. -/
noncomputable def colMean (m : List (List ℝ)) (j : Nat) : ℝ :=
  (m.map (fun r => colGet r j)).sum / (m.length : ℝ)

/-- Column population variance. -/
noncomputable def colVar (m : List (List ℝ)) (j : Nat) : ℝ :=
  (m.map (fun r => (colGet r j - colMean m j) ^ 2)).sum / (m.length : ℝ)

/-- Column scale: the standard deviation, with 0 replaced by 1. -/
noncomputable def colScale (m : List (List ℝ)) (j : Nat) : ℝ :=
  if Real.sqrt (colVar m j) = 0 then 1 else Real.sqrt (colVar m j)

/-- normalize_embeddings: StandardScaler().fit_transform on the embedding
matrix. -/
noncomputable def normalizeEmbeddings (m : List (List ℝ)) : List (List ℝ) :=
  m.map (fun row => (List.range row.length).map (fun j =>
    (colGet row j - colMean m j) / colScale m j))

/-! ## JobEmbeddingGenerator

State and the fit_transform / transform operations of the
JobEmbeddingGenerator class: the vectorizer state after a fit is the learned
vocabulary with its document frequencies and corpus size (from which the
stored idf weights are determined); `transform` raises
ValueError("Vectorizer must be fitted before transform") when no fit has
happened, and otherwise embeds against the stored vocabulary. -/

structure JobEmbeddingGenerator where
  /-- max_features constructor argument (default 725). -/
  maxFeatures : Nat
  /-- is_fitted flag, False after __init__. -/
  isFitted : Bool
  /-- The fitted vocabulary (empty before any fit). -/
  fittedVocab : List String
  /-- Document frequencies of the fitted vocabulary, aligned with it. -/
  fittedDfs : List Nat
  /-- Size of the fitted corpus. -/
  fittedN : Nat
deriving DecidableEq

/-- A freshly constructed generator. -/
def JobEmbeddingGenerator.init (maxFeatures : Nat) : JobEmbeddingGenerator :=
  ⟨maxFeatures, false, [], [], 0⟩

/-- fit_transform: learns the vocabulary on the corpus, marks the generator
fitted and returns the embedding matrix. -/
noncomputable def JobEmbeddingGenerator.fitTransform
    (g : JobEmbeddingGenerator) (docs : List (List String)) :
    JobEmbeddingGenerator × List (List ℝ) :=
  let ps := { embedderParams with maxFeatures := g.maxFeatures }
  let analyzed := docs.map (analyzeDoc ps)
  let vocab := vocabulary ps docs
  ({ g with isFitted := true, fittedVocab := vocab,
            fittedDfs := vocab.map (docFreq analyzed),
            fittedN := docs.length },
   tfidfFitTransform ps docs)

/-- transform: raises unless fitted, else embeds the new texts against the
stored vocabulary and idf weights. -/
noncomputable def JobEmbeddingGenerator.transform (g : JobEmbeddingGenerator)
    (docs : List (List String)) : Except String (List (List ℝ)) :=
  if !g.isFitted then .error "Vectorizer must be fitted before transform"
  else
    let ps := { embedderParams with maxFeatures := g.maxFeatures }
    .ok (docs.map (fun d =>
      l2normalize ((g.fittedVocab.zip g.fittedDfs).map (fun td =>
        ((analyzeDoc ps d).count td.1 : ℝ) *
          (Real.log ((1 + (g.fittedN : ℝ)) / (1 + (td.2 : ℝ))) + 1)))))

/-! ## FuzzyDeduplicator

Record model: one dataframe row with the five columns the deduplication code
touches; the dataframe is a list of rows whose label equals its position (a
default RangeIndex). `nan` is the rendering Python's str() gives a missing
value inside an f-string. -/

structure DedupRecord where
  title : Option String
  company : Option String
  location : Option String
  description : Option String
  salary : Option String
deriving DecidableEq, Inhabited

/-- str(row.get(column)) for an f-string: a missing value renders as nan. -/
def fieldStr (o : Option String) : String :=
  match o with
  | some s => s
  | none => "nan"

/-- The vectorizer's tokenization of one field: lowercase, split on blanks,
keep tokens of at least two word characters (token_pattern). -/
def tokifyStr (s : String) : List String :=
  (splitWords (lowerStr s)).filter (fun w => 2 ≤ w.length)

/-- _create_similarity_features: the token sequence of the weighted composite
key f-string "{title} {title} {company} {company} {location}". -/
def featureTokens (r : DedupRecord) : List String :=
  tokifyStr (fieldStr r.title) ++ tokifyStr (fieldStr r.title) ++
    tokifyStr (fieldStr r.company) ++ tokifyStr (fieldStr r.company) ++
    tokifyStr (fieldStr r.location)

/-- candidates.notna().sum(axis=1): the number of non-null fields. -/
def nonNullCount (r : DedupRecord) : Nat :=
  [r.title.isSome, r.company.isSome, r.location.isSome,
   r.description.isSome, r.salary.isSome].countP id

/-- Description length with fillna(""). -/
def descLength (r : DedupRecord) : Nat := (r.description.getD "").length

/-- total_score = completeness_score + (desc_lengths / 100).astype(int). -/
def totalScore (r : DedupRecord) : Nat := nonNullCount r + descLength r / 100

/-- The total score of the row at a position. -/
def rowScore (df : List DedupRecord) (i : Nat) : Nat :=
  totalScore (df.getD i default)

/-- Series.idxmax scan: first label of maximal value wins. -/
def idxmaxGo (best bestScore : Nat) : List (Nat × Nat) → Nat
  | [] => best
  | (i, s) :: rest =>
    if bestScore < s then idxmaxGo i s rest else idxmaxGo best bestScore rest

/-- Series.idxmax over (label, value) pairs; none on an empty series. -/
def idxmaxSeries : List (Nat × Nat) → Option Nat
  | [] => none
  | (i, s) :: rest => some (idxmaxGo i s rest)

/-- _select_best_record: scores the group members (their series keeps the df
labels, which equal the df positions), takes idxmax, and returns
indices[df.index.get_loc(best_local_idx)] — for a RangeIndex get_loc is the
identity, and the list indexing returns none on an out-of-range position
(Python IndexError). -/
def selectBestRecord (df : List DedupRecord) (indices : List Nat) :
    Option Nat :=
  (idxmaxSeries (indices.map (fun i => (i, rowScore df i)))).bind
    (fun lbl => indices[lbl]?)

/-! ## Union-find grouping (_group_similar_jobs)

The Python union-find over the parent array: recursive find with path
compression (embedded with fuel, the array length, which always suffices for
the acyclic parent forests arising here), union by root reassignment, then
the grouping loop collecting indices per root in insertion order and keeping
the groups with more than one member. -/

/-- parent[x]: out-of-range reads (never reached from the pipeline) return x
itself. -/
def getParent (p : List Nat) (x : Nat) : Nat := p.getD x x

/-- find(x) with path compression: returns the updated parent array and the
root. -/
def findAux : Nat → List Nat → Nat → List Nat × Nat
  | 0, p, x => (p, x)
  | fuel + 1, p, x =>
    let px := getParent p x
    if px = x then (p, x)
    else
      let res := findAux fuel p px
      (res.1.set x res.2, res.2)

/-- find over the full array. -/
def findRoot (p : List Nat) (x : Nat) : List Nat × Nat := findAux p.length p x

/-- union(x, y): px, py = find(x), find(y); if px != py: parent[px] = py. -/
def unionRoots (p : List Nat) (x y : Nat) : List Nat :=
  let r1 := findRoot p x
  let r2 := findRoot r1.1 y
  if r1.2 ≠ r2.2 then r2.1.set r1.2 r2.2 else r2.1

/-- parent = list(range(n_jobs)) followed by the unions of all similar
pairs. -/
def buildParent (pairs : List (Nat × Nat)) (n : Nat) : List Nat :=
  pairs.foldl (fun p ab => unionRoots p ab.1 ab.2) (List.range n)

/-- groups[p].append(i) on the insertion-ordered dict of groups. -/
def addToGroup (gs : List (Nat × List Nat)) (r i : Nat) :
    List (Nat × List Nat) :=
  match gs with
  | [] => [(r, [i])]
  | (k, l) :: rest =>
    if k = r then (k, l ++ [i]) :: rest else (k, l) :: addToGroup rest r i

/-- The grouping loop: for i in range(n), find(i) (the array keeps being
compressed) and append i under its root. -/
def collectGroups (n : Nat) (p0 : List Nat) :
    List Nat × List (Nat × List Nat) :=
  (List.range n).foldl
    (fun st i =>
      let fr := findRoot st.1 i
      (fr.1, addToGroup st.2 fr.2 i))
    (p0, [])

/-- _group_similar_jobs: the groups of more than one member. -/
def groupSimilarJobs (pairs : List (Nat × Nat)) (n : Nat) :
    List (List Nat) :=
  ((collectGroups n (buildParent pairs n)).2.map (fun kl => kl.2)).filter
    (fun g => decide (1 < g.length))

/-- Root of x obtained by pure parent chasing with the given fuel. -/
def chase : Nat → List Nat → Nat → Nat
  | 0, _, x => x
  | fuel + 1, p, x =>
    if getParent p x = x then x else chase fuel p (getParent p x)

/-- Specification-side root: the chase bounded by the array length. -/
def rootOf (p : List Nat) (x : Nat) : Nat := chase p.length p x

/-- Well-formed union-find state over n nodes: the array has length n, its
entries stay below n, and every chase reaches a fixpoint (the parent graph
is a forest). -/
def GoodUF (p : List Nat) (n : Nat) : Prop :=
  p.length = n ∧ (∀ x, x < n → getParent p x < n) ∧
    ∀ x, x < n → ∃ f, getParent p (chase f p x) = chase f p x

/-- Two records are directly similar when their pair was emitted (in either
orientation) by the similar-pair search. -/
def simRel (pairs : List (Nat × Nat)) (x y : Nat) : Prop :=
  (x, y) ∈ pairs ∨ (y, x) ∈ pairs

/-- similarity_threshold of the pipeline (0.85). -/
noncomputable def similarityThreshold : ℝ := 85 / 100

/-- find_similar_jobs: tf-idf over the composite-key token sequences, then
all pairs i < j whose cosine similarity reaches the threshold, with their
scores. -/
noncomputable def findSimilarJobs (df : List DedupRecord) :
    List (Nat × Nat × ℝ) :=
  let feats := df.map featureTokens
  let m := tfidfFitTransform dedupVectorizerParams feats
  let n := df.length
  ((List.range n).flatMap (fun i =>
      ((List.range n).drop (i + 1)).map (fun j =>
        (i, j, cosineSim (m.getD i []) (m.getD j []))))).filter
    (fun t => decide (similarityThreshold ≤ t.2.2))

/-- The DuplicateGroups the fuzzy pass forms on a dataframe. -/
noncomputable def duplicateGroupsOf (df : List DedupRecord) :
    List (List Nat) :=
  groupSimilarJobs ((findSimilarJobs df).map (fun t => (t.1, t.2.1)))
    df.length

/-- remove_fuzzy_duplicates: the input when no pair is similar; otherwise,
per group, the selected best index is kept and the rest of the group removed
from the kept indices (ascending), and the kept rows are returned. A failed
selection (IndexError) yields none. -/
noncomputable def removeFuzzyDuplicates (df : List DedupRecord) :
    Option (List DedupRecord) :=
  if (findSimilarJobs df).isEmpty then some df
  else
    (((duplicateGroupsOf df).foldl
        (fun acc g =>
          acc.bind (fun keep =>
            if 1 < g.length then
              (selectBestRecord df g).map (fun best =>
                keep.filter (fun i => !(g.erase best).contains i))
            else some keep))
        (some (List.range df.length))).map
      (fun keep => keep.map (fun i => df.getD i default)))

/-! ## Concrete instances -/

/-- A 300-character description. -/
def longDescription : String := String.mk (List.replicate 300 'x')

/-- Five non-null fields, empty description: total score 5. -/
def recComplete : DedupRecord :=
  ⟨some "aaa", some "bbb", some "ccc", some "", some "50k"⟩

/-- Four non-null fields, 300-character description: total score 7. -/
def recDetailed : DedupRecord :=
  ⟨some "aaa", some "bbb", some "ccc", some longDescription, none⟩

/-- The two-record dataframe of the survivor-completeness counterexample. -/
def dfC3 : List DedupRecord := [recComplete, recDetailed]

/-- A record with a composite key sharing no token with the others. -/
def recOther : DedupRecord :=
  ⟨some "xxx", some "yyy", some "zzz", some "short", none⟩

/-- The best-scoring record of the C9 group: all fields set, score 8. -/
def recBest : DedupRecord :=
  ⟨some "aaa", some "bbb", some "ccc", some longDescription, some "50k"⟩

/-- The weaker record of the C9 group: three fields, score 3. -/
def recWorse : DedupRecord :=
  ⟨some "aaa", some "bbb", some "ccc", none, none⟩

/-- The three-record dataframe on which remove_fuzzy_duplicates drops the
best-scoring member of its only group. -/
def dfC9 : List DedupRecord := [recOther, recBest, recWorse]

/-- Three pairwise-similar records (identical composite keys). -/
def dfC4 : List DedupRecord := [recBest, recBest, recWorse]

/-- A four-token document: tf-idf counts 4 (unigram) and 3 (bigram). -/
def docAaaa : List String := ["aaa", "aaa", "aaa", "aaa"]

/-- A document whose terms fall below min_df. -/
def docCcc : List String := ["ccc", "ccc", "ccc"]

/-- Another document whose terms fall below min_df. -/
def docDd : List String := ["ddd", "ddd"]

/-- The embedder corpus of the C7 counterexample: two identical documents
with surviving vocabulary and two documents embedding to zero rows. -/
def corpusC7 : List (List String) := [docAaaa, docAaaa, docCcc, docDd]

/-- The embedding matrix of corpusC7: two unit rows and two zero rows. -/
noncomputable def matrixC7 : List (List ℝ) :=
  [[4 / 5, 3 / 5], [4 / 5, 3 / 5], [0, 0], [0, 0]]

/-- A fit corpus: the term aaa survives min_df=2 and max_df=0.95*3. -/
def corpusFit : List (List String) := [["aaa"], ["aaa"], ["bbb"]]

/-- A later corpus sharing no term with the fitted vocabulary. -/
def corpusNew : List (List String) := [["zzz"]]

/-- C10: tag_job_with_keywords yields a sublist of the supplied keywords and
yields the empty list on a missing description. -/
theorem tagJob_sublist_and_nan (kws : List String) (d : Option String) :
    tagJobWithKeywords none kws = [] ∧
      (tagJobWithKeywords d kws).Sublist kws := by
  refine ⟨rfl, ?_⟩
  cases d with
  | none => exact List.nil_sublist kws
  | some s => exact List.filter_sublist kws

/-- C1: whenever the contract type carries no student signal while the title
carries both a management and a junior signal, the classifier returns
MANAGEMENT: the management rule (priority 2) wins over the junior rule
(priority 4). -/
theorem management_beats_junior (title contractType : String)
    (hs : studentSignal contractType = false)
    (hm : managementSignal title = true)
    (_hj : juniorSignal title = true) :
    classifySeniority title contractType = .management := by
  simp [classifySeniority, hs, hm]

/-- Witness for C1 at the spec example: title "Junior Team Lead", contract
"Permanent" classifies as MANAGEMENT. -/
theorem management_beats_junior_witness :
    classifySeniority "Junior Team Lead" "Permanent" = .management :=
  management_beats_junior "Junior Team Lead" "Permanent"
    (by decide) (by decide) (by decide)

/-- C2: a student/intern/apprenticeship contract signal forces ENTRY,
regardless of the title (priority 1, the contract override). -/
theorem contract_override_entry (title contractType : String)
    (hs : studentSignal contractType = true) :
    classifySeniority title contractType = .entry := by
  simp [classifySeniority, hs]

/-- Witness for C2 at the spec example: title "Director of Coffee Intern",
contract "Praktikum" classifies as ENTRY despite the management signal. -/
theorem contract_override_entry_witness :
    classifySeniority "Director of Coffee Intern" "Praktikum" = .entry :=
  contract_override_entry "Director of Coffee Intern" "Praktikum" (by decide)

/-- C6: a token is accepted as a certification keyword only if it is an
uppercase acronym of 3 to 8 characters not on the blacklist: a token with a
non-uppercase character or longer than 8 characters is never emitted, and an
acronym off the blacklist always is. -/
theorem cert_filter_correct (token : String) (blocklist : List String) :
    ((token.toList.all Char.isUpper = false ∨ 8 < token.length) →
        certAccepted token blocklist = false) ∧
      ((isAcronym token = true ∧ token ∉ blocklist) →
        certAccepted token blocklist = true) := by
  constructor
  · rintro (h | h)
    · have ha : isAcronym token = false := by
        unfold isAcronym
        rw [h]
        simp
      simp [certAccepted, ha]
    · have ha : isAcronym token = false := by
        unfold isAcronym
        have h8 : decide (token.length ≤ 8) = false := by
          simp only [decide_eq_false_iff_not]
          omega
        rw [h8]
        simp
      simp [certAccepted, ha]
  · rintro ⟨h, hb⟩
    simp [certAccepted, h]
    exact hb

/-- Witness for C6: "siemens" (lowercase) is rejected and "PMP" (clean
acronym) is accepted, against the documented blacklist. -/
theorem cert_filter_correct_witness :
    certAccepted "siemens" companyBlocklist = false ∧
      certAccepted "PMP" companyBlocklist = true :=
  ⟨(cert_filter_correct "siemens" companyBlocklist).1 (Or.inl (by decide)),
   (cert_filter_correct "PMP" companyBlocklist).2 ⟨by decide, by decide⟩⟩

/-- C5 counterexample: the extractor matches by substring, so the keyword
"python" IS reported as matched for a description whose only occurrence of
"python" is inside the longer word "Pythonic" — refuting boundary
correctness as documented (embeddings.md Technical Term Boundary Handling). -/
theorem python_matches_inside_pythonic :
    tagJobWithKeywords (some "Pythonic developer wanted") ["python"] =
      ["python"] := by decide

/-- C5 amended: matching in the in-repository extractor is substring-based:
any keyword of the cluster list whose lowered form occurs as a substring of
the lowered description is matched. In particular "C++" is matched inside
"C++ developer", but "Python" is also matched inside "Pythonic". -/
theorem substring_keyword_matched (kw d : String) (kws : List String)
    (hmem : kw ∈ kws)
    (hsub : strContains (lowerStr d) (lowerStr kw) = true) :
    kw ∈ tagJobWithKeywords (some d) kws := by
  unfold tagJobWithKeywords
  refine List.mem_filter.mpr ⟨hmem, ?_⟩
  unfold fuzzyMatch
  simp [hsub]

/-- Witness for the amended C5: "C++" is matched in "C++ developer" despite
its non-word characters. -/
theorem substring_keyword_matched_witness :
    "c++" ∈ tagJobWithKeywords (some "C++ developer") ["c++"] :=
  substring_keyword_matched "c++" "C++ developer" ["c++"]
    (by decide) (by decide)

/-! ## Embedder theorems (C8, C7) -/

/-- C8 amended: transform on a generator that has never been fitted raises
ValueError("Vectorizer must be fitted before transform"), for every input. -/
theorem transform_unfitted_errors (g : JobEmbeddingGenerator)
    (docs : List (List String)) (h : g.isFitted = false) :
    g.transform docs = .error "Vectorizer must be fitted before transform" := by
  unfold JobEmbeddingGenerator.transform
  simp [h]

/-- Witness for the amended C8: a fresh generator refuses to transform. -/
theorem transform_unfitted_errors_witness :
    (JobEmbeddingGenerator.init 725).transform [["aaa"]] =
      .error "Vectorizer must be fitted before transform" :=
  transform_unfitted_errors (JobEmbeddingGenerator.init 725) [["aaa"]] rfl

/-- The generator state after fitting corpusFit: fitted, with the learned
vocabulary ["aaa"] (document frequency 2 over 3 documents). -/
theorem fitTransform_corpusFit_state :
    ((JobEmbeddingGenerator.init 725).fitTransform corpusFit).1 =
      ⟨725, true, ["aaa"], [2], 3⟩ := by decide

/-- C8 counterexample: once any corpus has been fitted, transform does NOT
raise on a different (stale) corpus: after fitting corpusFit, transforming
corpusNew — which shares no term with the fitted vocabulary — silently
returns an embedding (the zero vector), not an error. -/
theorem transform_stale_vocabulary_succeeds :
    (((JobEmbeddingGenerator.init 725).fitTransform corpusFit).1).transform
        corpusNew = .ok [[0]] := by
  rw [fitTransform_corpusFit_state]
  unfold JobEmbeddingGenerator.transform
  simp only [embedderParams]
  have hcount :
      List.count "aaa" (analyzeDoc ⟨725, 2, 19, 20, 1, 2, []⟩ ["zzz"]) = 0 := by
    decide
  simp [corpusNew, l2normalize, sumSqR, hcount]

/-! ## Real-vector lemmas -/

/-- A sum of squares is nonnegative. -/
theorem sumSqR_nonneg (v : List ℝ) : 0 ≤ sumSqR v := by
  refine List.sum_nonneg ?_
  intro x hx
  obtain ⟨y, _, rfl⟩ := List.mem_map.mp hx
  exact mul_self_nonneg y

/-- A zero sum of squares means every entry is zero. -/
theorem sumSqR_zero_entries (v : List ℝ) (h : sumSqR v = 0) :
    ∀ x ∈ v, x = 0 := by
  induction v with
  | nil => intro x hx; cases hx
  | cons a t ih =>
    have hsplit : sumSqR (a :: t) = a * a + sumSqR t := by
      simp [sumSqR]
    rw [hsplit] at h
    have ha : a * a = 0 ∧ sumSqR t = 0 := by
      constructor
      · nlinarith [sumSqR_nonneg t, mul_self_nonneg a]
      · nlinarith [sumSqR_nonneg t, mul_self_nonneg a]
    intro x hx
    rcases List.mem_cons.mp hx with rfl | hxt
    · exact mul_self_eq_zero.mp ha.1
    · exact ih ha.2 x hxt

/-- Dividing every entry by c divides the sum of squares by c squared. -/
theorem sumSqR_map_div (v : List ℝ) (c : ℝ) :
    sumSqR (v.map (fun x => x / c)) = sumSqR v / c ^ 2 := by
  induction v with
  | nil => simp [sumSqR]
  | cons a t ih =>
    have h1 : sumSqR ((a :: t).map (fun x => x / c)) =
        (a / c) * (a / c) + sumSqR (t.map (fun x => x / c)) := by
      simp [sumSqR]
    have h2 : sumSqR (a :: t) = a * a + sumSqR t := by simp [sumSqR]
    rw [h1, h2, ih]
    field_simp
    ring

/-- An l2-normalized nonzero row has unit squared norm. -/
theorem sumSqR_l2normalize (v : List ℝ) (h : sumSqR v ≠ 0) :
    sumSqR (l2normalize v) = 1 := by
  unfold l2normalize
  rw [if_neg h, sumSqR_map_div, Real.sq_sqrt (sumSqR_nonneg v), div_self h]

/-- C7 amended: every row fit_transform produces is either a unit vector
(squared norm exactly 1) or the all-zero vector of a document with no
in-vocabulary term. The rows handed to the clusterer, however, pass through
normalize_embeddings (StandardScaler), which does not preserve unit norm. -/
theorem fit_transform_rows_unit_or_zero (docs : List (List String))
    (row : List ℝ) (h : row ∈ tfidfFitTransform embedderParams docs) :
    sumSqR row = 1 ∨ ∀ x ∈ row, x = 0 := by
  unfold tfidfFitTransform at h
  obtain ⟨d, _, rfl⟩ := List.mem_map.mp h
  by_cases h0 : sumSqR (tfidfRawRow embedderParams docs d) = 0
  · right
    unfold l2normalize
    rw [if_pos h0]
    exact sumSqR_zero_entries _ h0
  · left
    exact sumSqR_l2normalize _ h0

/-- The fitted vocabulary of the C7 corpus: the surviving unigram and bigram
(document frequency 2 each; the other terms fall below min_df = 2). -/
theorem vocab_corpusC7 :
    vocabulary embedderParams corpusC7 = ["aaa", "aaa aaa"] := by decide

/-- Raw tf-idf row of docAaaa over corpusC7: counts 4 and 3 times the common
smoothed idf log(5/3) + 1. -/
theorem rawRow_docAaaa :
    tfidfRawRow embedderParams corpusC7 docAaaa =
      [4 * (Real.log (5 / 3) + 1), 3 * (Real.log (5 / 3) + 1)] := by
  simp only [tfidfRawRow, idfVal]
  rw [vocab_corpusC7]
  have h1 : (analyzeDoc embedderParams docAaaa).count "aaa" = 4 := by decide
  have h2 : (analyzeDoc embedderParams docAaaa).count "aaa aaa" = 3 := by decide
  have h3 : docFreq (corpusC7.map (analyzeDoc embedderParams)) "aaa" = 2 := by
    decide
  have h4 : docFreq (corpusC7.map (analyzeDoc embedderParams)) "aaa aaa" = 2 := by
    decide
  have h5 : corpusC7.length = 4 := rfl
  simp only [List.map_cons, List.map_nil, h1, h2, h3, h4, h5]
  norm_num

/-- Raw tf-idf row of docCcc: zero (its terms are not in the vocabulary). -/
theorem rawRow_docCcc :
    tfidfRawRow embedderParams corpusC7 docCcc = [0, 0] := by
  simp only [tfidfRawRow, idfVal]
  rw [vocab_corpusC7]
  have h1 : (analyzeDoc embedderParams docCcc).count "aaa" = 0 := by decide
  have h2 : (analyzeDoc embedderParams docCcc).count "aaa aaa" = 0 := by decide
  simp [h1, h2]

/-- Raw tf-idf row of docDd: zero. -/
theorem rawRow_docDd :
    tfidfRawRow embedderParams corpusC7 docDd = [0, 0] := by
  simp only [tfidfRawRow, idfVal]
  rw [vocab_corpusC7]
  have h1 : (analyzeDoc embedderParams docDd).count "aaa" = 0 := by decide
  have h2 : (analyzeDoc embedderParams docDd).count "aaa aaa" = 0 := by decide
  simp [h1, h2]

/-- L2 normalization of the (4, 3)-pattern row: the idf factor cancels. -/
theorem l2_row_45 :
    l2normalize [4 * (Real.log (5 / 3) + 1), 3 * (Real.log (5 / 3) + 1)] =
      [4 / 5, 3 / 5] := by
  have hL : 0 < Real.log (5 / 3) + 1 := by
    have := Real.log_nonneg (by norm_num : (1 : ℝ) ≤ 5 / 3)
    linarith
  have hL0 : Real.log (5 / 3) + 1 ≠ 0 := ne_of_gt hL
  have hS : sumSqR [4 * (Real.log (5 / 3) + 1), 3 * (Real.log (5 / 3) + 1)] =
      25 * (Real.log (5 / 3) + 1) ^ 2 := by
    simp [sumSqR]
    ring
  have hS0 : sumSqR [4 * (Real.log (5 / 3) + 1),
      3 * (Real.log (5 / 3) + 1)] ≠ 0 := by
    rw [hS]
    exact ne_of_gt (mul_pos (by norm_num) (pow_pos hL 2))
  unfold l2normalize
  rw [if_neg hS0, hS,
    show (25 : ℝ) * (Real.log (5 / 3) + 1) ^ 2 =
      (5 * (Real.log (5 / 3) + 1)) ^ 2 by ring,
    Real.sqrt_sq (by linarith : (0 : ℝ) ≤ 5 * (Real.log (5 / 3) + 1))]
  simp only [List.map_cons, List.map_nil]
  have e1 : 4 * (Real.log (5 / 3) + 1) / (5 * (Real.log (5 / 3) + 1)) =
      4 / 5 := by
    rw [mul_comm 4 (Real.log (5 / 3) + 1), mul_comm 5 (Real.log (5 / 3) + 1),
      mul_div_mul_left _ _ hL0]
  have e2 : 3 * (Real.log (5 / 3) + 1) / (5 * (Real.log (5 / 3) + 1)) =
      3 / 5 := by
    rw [mul_comm 3 (Real.log (5 / 3) + 1), mul_comm 5 (Real.log (5 / 3) + 1),
      mul_div_mul_left _ _ hL0]
  rw [e1, e2]

/-- The embedding matrix fit_transform produces on the C7 corpus. -/
theorem fitTransform_corpusC7 :
    tfidfFitTransform embedderParams corpusC7 = matrixC7 := by
  have hmap : ∀ f : List String → List ℝ,
      corpusC7.map f = [f docAaaa, f docAaaa, f docCcc, f docDd] :=
    fun f => rfl
  simp only [tfidfFitTransform]
  rw [hmap, rawRow_docAaaa, rawRow_docCcc, rawRow_docDd, l2_row_45]
  simp [matrixC7, l2normalize, sumSqR]

/-- StandardScaler output on the C7 embedding matrix: every entry becomes
plus or minus one. -/
theorem scaler_matrixC7 :
    normalizeEmbeddings matrixC7 =
      [[1, 1], [1, 1], [-1, -1], [-1, -1]] := by
  have hm0 : colMean matrixC7 0 = 2 / 5 := by
    simp [colMean, colGet, matrixC7]
    norm_num
  have hm1 : colMean matrixC7 1 = 3 / 10 := by
    simp [colMean, colGet, matrixC7]
    norm_num
  have hv0 : colVar matrixC7 0 = 4 / 25 := by
    unfold colVar
    simp only [hm0]
    simp [colGet, matrixC7]
    norm_num
  have hv1 : colVar matrixC7 1 = 9 / 100 := by
    unfold colVar
    simp only [hm1]
    simp [colGet, matrixC7]
    norm_num
  have hsc0 : colScale matrixC7 0 = 2 / 5 := by
    unfold colScale
    rw [hv0, show (4 : ℝ) / 25 = (2 / 5) ^ 2 by norm_num,
      Real.sqrt_sq (by norm_num : (0 : ℝ) ≤ 2 / 5)]
    norm_num
  have hsc1 : colScale matrixC7 1 = 3 / 10 := by
    unfold colScale
    rw [hv1, show (9 : ℝ) / 100 = (3 / 10) ^ 2 by norm_num,
      Real.sqrt_sq (by norm_num : (0 : ℝ) ≤ 3 / 10)]
    norm_num
  have hmap : ∀ f : List ℝ → List ℝ,
      matrixC7.map f = [f [4 / 5, 3 / 5], f [4 / 5, 3 / 5],
        f [0, 0], f [0, 0]] := fun f => rfl
  unfold normalizeEmbeddings
  rw [hmap]
  have hr2 : List.range 2 = [0, 1] := by decide
  norm_num [List.length_cons, hr2, hm0, hm1, hsc0, hsc1, colGet]

/-- C7 counterexample: on the C7 corpus, the first embedding row as handed to
the clusterer — after normalize_embeddings (StandardScaler) — has squared L2
norm 2, not 1 (every row of this corpus scales to entries of absolute value
1). -/
theorem clusterer_rows_not_unit :
    sumSqR ((normalizeEmbeddings
        (tfidfFitTransform embedderParams corpusC7)).getD 0 []) = 2 ∧
      (2 : ℝ) ≠ 1 := by
  rw [fitTransform_corpusC7, scaler_matrixC7]
  constructor
  · simp [sumSqR]
    norm_num
  · norm_num

/-- Witness for the amended C7: the concrete unit row [4/5, 3/5] produced by
fit_transform on the C7 corpus. -/
theorem fit_transform_rows_unit_or_zero_witness :
    sumSqR [(4 : ℝ) / 5, 3 / 5] = 1 ∨ ∀ x ∈ [(4 : ℝ) / 5, 3 / 5], x = 0 :=
  fit_transform_rows_unit_or_zero corpusC7 [(4 : ℝ) / 5, 3 / 5]
    (by rw [fitTransform_corpusC7]; simp [matrixC7])

/-! ## Survivor selection (C3) -/

/-- The idxmax scan keeps a label of maximal value: the result is the start
label or a scanned label, its value dominates the start value and every
scanned value. -/
theorem idxmaxGo_spec (f : Nat → Nat) :
    ∀ (l : List (Nat × Nat)) (best bestScore : Nat),
      f best = bestScore → (∀ p ∈ l, f p.1 = p.2) →
      (idxmaxGo best bestScore l = best ∨
          ∃ p ∈ l, idxmaxGo best bestScore l = p.1) ∧
        bestScore ≤ f (idxmaxGo best bestScore l) ∧
        ∀ p ∈ l, p.2 ≤ f (idxmaxGo best bestScore l) := by
  intro l
  induction l with
  | nil =>
    intro best bestScore hb _
    exact ⟨Or.inl rfl, le_of_eq hb.symm, by simp⟩
  | cons hd tl ih =>
    intro best bestScore hb hl
    obtain ⟨i, s⟩ := hd
    have hi : f i = s := hl (i, s) (List.mem_cons_self _ _)
    have htl : ∀ p ∈ tl, f p.1 = p.2 :=
      fun p hp => hl p (List.mem_cons_of_mem _ hp)
    by_cases hlt : bestScore < s
    · have hres : idxmaxGo best bestScore ((i, s) :: tl) = idxmaxGo i s tl := by
        simp [idxmaxGo, hlt]
      obtain ⟨hmem, hge, hall⟩ := ih i s hi htl
      rw [hres]
      refine ⟨?_, le_trans (le_of_lt hlt) hge, ?_⟩
      · rcases hmem with h | ⟨p, hp, h⟩
        · exact Or.inr ⟨(i, s), List.mem_cons_self _ _, h⟩
        · exact Or.inr ⟨p, List.mem_cons_of_mem _ hp, h⟩
      · intro p hp
        rcases List.mem_cons.mp hp with rfl | hptl
        · exact hge
        · exact hall p hptl
    · have hres : idxmaxGo best bestScore ((i, s) :: tl) =
          idxmaxGo best bestScore tl := by
        simp [idxmaxGo, hlt]
      obtain ⟨hmem, hge, hall⟩ := ih best bestScore hb htl
      rw [hres]
      refine ⟨?_, hge, ?_⟩
      · rcases hmem with h | ⟨p, hp, h⟩
        · exact Or.inl h
        · exact Or.inr ⟨p, List.mem_cons_of_mem _ hp, h⟩
      · intro p hp
        rcases List.mem_cons.mp hp with rfl | hptl
        · exact le_trans (Nat.le_of_not_lt hlt) hge
        · exact hall p hptl

/-- idxmax over the scored group series returns a member label whose score
dominates the whole group. -/
theorem selectBest_spec (df : List DedupRecord) (indices : List Nat)
    (hne : indices ≠ []) :
    ∃ lbl, idxmaxSeries (indices.map (fun i => (i, rowScore df i))) =
        some lbl ∧ lbl ∈ indices ∧
        ∀ r ∈ indices, rowScore df r ≤ rowScore df lbl := by
  cases indices with
  | nil => exact absurd rfl hne
  | cons i0 rest =>
    obtain ⟨hmem, hge, hall⟩ := idxmaxGo_spec (rowScore df)
      (rest.map (fun i => (i, rowScore df i))) i0 (rowScore df i0) rfl
      (by
        intro p hp
        obtain ⟨i, _, rfl⟩ := List.mem_map.mp hp
        rfl)
    refine ⟨idxmaxGo i0 (rowScore df i0)
      (rest.map (fun i => (i, rowScore df i))), by simp [idxmaxSeries], ?_, ?_⟩
    · rcases hmem with h | ⟨p, hp, h⟩
      · rw [h]; exact List.mem_cons_self _ _
      · obtain ⟨i, hi, rfl⟩ := List.mem_map.mp hp
        rw [h]
        exact List.mem_cons_of_mem _ hi
    · intro r hr
      rcases List.mem_cons.mp hr with rfl | hrrest
      · exact hge
      · exact hall (r, rowScore df r)
          (List.mem_map.mpr ⟨r, hrrest, rfl⟩)

/-- C3 amended: when the duplicate group consists of the first m record
positions (the only shape on which the label-to-position lookup of
_select_best_record is the identity), the selected survivor maximises the
combined score nonNullCount + floor(descriptionLength / 100) over the group;
its non-null count alone may still be smaller than another member's. -/
theorem survivor_max_combined_score (df : List DedupRecord) (m r : Nat)
    (hm : 0 < m) (hr : r < m) :
    ∃ b, selectBestRecord df (List.range m) = some b ∧ b < m ∧
      rowScore df r ≤ rowScore df b := by
  obtain ⟨lbl, hser, hmem, hall⟩ := selectBest_spec df (List.range m)
    (by simp [List.range_eq_nil]; omega)
  have hlbl : lbl < m := List.mem_range.mp hmem
  refine ⟨lbl, ?_, hlbl, hall r (List.mem_range.mpr hr)⟩
  unfold selectBestRecord
  rw [hser]
  simp [List.getElem?_range hlbl]

/-- Witness for the amended C3 on the two-record dataframe. -/
theorem survivor_max_combined_score_witness :
    ∃ b, selectBestRecord dfC3 (List.range 2) = some b ∧ b < 2 ∧
      rowScore dfC3 0 ≤ rowScore dfC3 b :=
  survivor_max_combined_score dfC3 2 0 (by decide) (by decide)

/-! ## Cosine similarity lemmas -/

/-- The dot product of a vector with itself is its squared norm. -/
theorem dotR_self (v : List ℝ) : dotR v v = sumSqR v := by
  induction v with
  | nil => simp [dotR, sumSqR]
  | cons a t ih =>
    have h1 : dotR (a :: t) (a :: t) = a * a + dotR t t := by simp [dotR]
    have h2 : sumSqR (a :: t) = a * a + sumSqR t := by simp [sumSqR]
    rw [h1, h2, ih]

/-- Cosine similarity of a nonzero vector with itself is one. -/
theorem cosineSim_self (v : List ℝ) (h : sumSqR v ≠ 0) :
    cosineSim v v = 1 := by
  unfold cosineSim
  rw [dotR_self, Real.mul_self_sqrt (sumSqR_nonneg v), div_self h]

/-- A dot product over a shared index list vanishes when the entry products
vanish pointwise. -/
theorem dotR_map_map_zero {α : Type} (l : List α) (g h : α → ℝ)
    (hz : ∀ t ∈ l, g t * h t = 0) : dotR (l.map g) (l.map h) = 0 := by
  induction l with
  | nil => simp [dotR]
  | cons a t ih =>
    have hsplit : dotR ((a :: t).map g) ((a :: t).map h) =
        g a * h a + dotR (t.map g) (t.map h) := by simp [dotR]
    rw [hsplit, hz a (List.mem_cons_self _ _),
      ih (fun x hx => hz x (List.mem_cons_of_mem _ hx)), zero_add]

/-- l2 normalization is entrywise division by a constant. -/
theorem l2normalize_eq_map_div (v : List ℝ) :
    ∃ c, l2normalize v = v.map (fun x => x / c) := by
  by_cases h : sumSqR v = 0
  · refine ⟨1, ?_⟩
    unfold l2normalize
    rw [if_pos h]
    simp
  · exact ⟨Real.sqrt (sumSqR v), by unfold l2normalize; rw [if_neg h]⟩

/-- Documents with disjoint analyzed term multisets have orthogonal tf-idf
rows, hence cosine similarity zero. -/
theorem cosine_tfidf_disjoint (ps : TfidfParams) (docs : List (List String))
    (d0 d1 : List String)
    (hdisj : ∀ t ∈ analyzeDoc ps d0, t ∉ analyzeDoc ps d1) :
    cosineSim (l2normalize (tfidfRawRow ps docs d0))
      (l2normalize (tfidfRawRow ps docs d1)) = 0 := by
  obtain ⟨c0, h0⟩ := l2normalize_eq_map_div (tfidfRawRow ps docs d0)
  obtain ⟨c1, h1⟩ := l2normalize_eq_map_div (tfidfRawRow ps docs d1)
  unfold cosineSim
  rw [h0, h1]
  simp only [tfidfRawRow, List.map_map]
  rw [dotR_map_map_zero _ _ _ ?_, zero_div]
  intro t _
  simp only [Function.comp]
  by_cases hc0 : (analyzeDoc ps d0).count t = 0
  · rw [hc0]
    push_cast
    ring
  · have ht0 : t ∈ analyzeDoc ps d0 :=
      List.count_pos_iff_mem.mp (Nat.pos_of_ne_zero hc0)
    have hc1 : (analyzeDoc ps d1).count t = 0 :=
      List.count_eq_zero.mpr (hdisj t ht0)
    rw [hc1]
    push_cast
    ring

/-- The smoothed idf weight is positive (the document frequency never
exceeds the corpus size). -/
theorem idfVal_pos (docs : List (List String)) (ps : TfidfParams)
    (t : String) :
    0 < idfVal (docs.map (analyzeDoc ps)) docs.length t := by
  unfold idfVal
  have hdf : docFreq (docs.map (analyzeDoc ps)) t ≤ docs.length := by
    have := List.countP_le_length
      (l := docs.map (analyzeDoc ps)) (p := fun d => d.contains t)
    simpa [docFreq] using this
  have harg : (1 : ℝ) ≤ (1 + (docs.length : ℝ)) /
      (1 + (docFreq (docs.map (analyzeDoc ps)) t : ℝ)) := by
    rw [le_div_iff (by positivity)]
    have : (docFreq (docs.map (analyzeDoc ps)) t : ℝ) ≤ (docs.length : ℝ) := by
      exact_mod_cast hdf
    linarith
  have := Real.log_nonneg harg
  linarith

/-- A squared entry is at most the squared norm. -/
theorem sq_le_sumSqR (v : List ℝ) (x : ℝ) (hx : x ∈ v) :
    x * x ≤ sumSqR v := by
  refine List.single_le_sum ?_ (x * x) (List.mem_map.mpr ⟨x, hx, rfl⟩)
  intro y hy
  obtain ⟨z, _, rfl⟩ := List.mem_map.mp hy
  exact mul_self_nonneg z

/-- A document holding an in-vocabulary term has a nonzero raw tf-idf row. -/
theorem tfidfRawRow_ne_zero (ps : TfidfParams) (docs : List (List String))
    (d : List String) (t0 : String) (hv : t0 ∈ vocabulary ps docs)
    (hc : (analyzeDoc ps d).count t0 ≠ 0) :
    sumSqR (tfidfRawRow ps docs d) ≠ 0 := by
  have hentry : ((analyzeDoc ps d).count t0 : ℝ) *
      idfVal (docs.map (analyzeDoc ps)) docs.length t0 ∈
      tfidfRawRow ps docs d := by
    simp only [tfidfRawRow]
    exact List.mem_map.mpr ⟨t0, hv, rfl⟩
  have hpos : 0 < ((analyzeDoc ps d).count t0 : ℝ) *
      idfVal (docs.map (analyzeDoc ps)) docs.length t0 := by
    refine mul_pos ?_ (idfVal_pos docs ps t0)
    exact_mod_cast Nat.pos_of_ne_zero hc
  have := sq_le_sumSqR _ _ hentry
  nlinarith

/-- Cosine similarity of the tf-idf row of a document carrying an
in-vocabulary term with itself is one. -/
theorem cosine_tfidf_self_one (ps : TfidfParams) (docs : List (List String))
    (d : List String) (t0 : String) (hv : t0 ∈ vocabulary ps docs)
    (hc : (analyzeDoc ps d).count t0 ≠ 0) :
    cosineSim (l2normalize (tfidfRawRow ps docs d))
      (l2normalize (tfidfRawRow ps docs d)) = 1 := by
  have hS := tfidfRawRow_ne_zero ps docs d t0 hv hc
  have h1 := sumSqR_l2normalize _ hS
  exact cosineSim_self _ (by rw [h1]; exact one_ne_zero)

/-! ## Fuzzy-pass evaluations on the concrete dataframes -/

/-- The composite-key token sequences of dfC3: the two records share their
title, company and location. -/
theorem featTokens_dfC3 : dfC3.map featureTokens =
    [featureTokens recComplete, featureTokens recComplete] := by decide

/-- find_similar_jobs on dfC3: the single pair, at similarity one. -/
theorem findSimilarJobs_dfC3 : findSimilarJobs dfC3 = [(0, 1, 1)] := by
  have hcos : cosineSim
      (l2normalize (tfidfRawRow dedupVectorizerParams
        [featureTokens recComplete, featureTokens recComplete]
        (featureTokens recComplete)))
      (l2normalize (tfidfRawRow dedupVectorizerParams
        [featureTokens recComplete, featureTokens recComplete]
        (featureTokens recComplete))) = 1 :=
    cosine_tfidf_self_one _ _ _ "aaa" (by decide) (by decide)
  have hpred : decide (similarityThreshold ≤ (1 : ℝ)) = true :=
    decide_eq_true (by norm_num [similarityThreshold])
  simp only [findSimilarJobs]
  rw [featTokens_dfC3, show dfC3.length = 2 from rfl,
    show List.range 2 = [0, 1] from by decide]
  simp only [tfidfFitTransform, List.map_cons, List.map_nil,
    List.flatMap_cons, List.flatMap_nil, List.drop_succ_cons, List.drop_nil,
    List.getD_cons_zero, List.getD_cons_succ, List.append_nil, List.drop_one,
    List.tail_cons, List.drop_zero]
  rw [hcos]
  simp [List.filter, hpred]

/-- C3 counterexample: the fuzzy pass on dfC3 forms the single
DuplicateGroup [0, 1]; _select_best_record picks record 1 (combined score 7
beats 5, thanks to the description-length bonus), yet record 1 has strictly
fewer non-null fields (4) than the discarded record 0 (5). -/
theorem survivor_less_complete :
    duplicateGroupsOf dfC3 = [[0, 1]] ∧
      selectBestRecord dfC3 [0, 1] = some 1 ∧
      nonNullCount (dfC3.getD 1 default) <
        nonNullCount (dfC3.getD 0 default) := by
  refine ⟨?_, by decide, by decide⟩
  unfold duplicateGroupsOf
  rw [findSimilarJobs_dfC3]
  decide

/-- The composite-key token sequences of dfC9: records 1 and 2 share their
key, record 0 is disjoint from them. -/
theorem featTokens_dfC9 : dfC9.map featureTokens =
    [featureTokens recOther, featureTokens recBest, featureTokens recBest] := by
  decide

/-- find_similar_jobs on dfC9: only the pair (1, 2) reaches the threshold. -/
theorem findSimilarJobs_dfC9 : findSimilarJobs dfC9 = [(1, 2, 1)] := by
  have hcos12 : cosineSim
      (l2normalize (tfidfRawRow dedupVectorizerParams
        [featureTokens recOther, featureTokens recBest, featureTokens recBest]
        (featureTokens recBest)))
      (l2normalize (tfidfRawRow dedupVectorizerParams
        [featureTokens recOther, featureTokens recBest, featureTokens recBest]
        (featureTokens recBest))) = 1 :=
    cosine_tfidf_self_one _ _ _ "aaa" (by decide) (by decide)
  have hcos01 : cosineSim
      (l2normalize (tfidfRawRow dedupVectorizerParams
        [featureTokens recOther, featureTokens recBest, featureTokens recBest]
        (featureTokens recOther)))
      (l2normalize (tfidfRawRow dedupVectorizerParams
        [featureTokens recOther, featureTokens recBest, featureTokens recBest]
        (featureTokens recBest))) = 0 :=
    cosine_tfidf_disjoint _ _ _ _ (by decide)
  have hpredT : decide (similarityThreshold ≤ (1 : ℝ)) = true :=
    decide_eq_true (by norm_num [similarityThreshold])
  have hpredF : decide (similarityThreshold ≤ (0 : ℝ)) = false :=
    decide_eq_false (by norm_num [similarityThreshold])
  simp only [findSimilarJobs]
  rw [featTokens_dfC9, show dfC9.length = 3 from rfl,
    show List.range 3 = [0, 1, 2] from by decide]
  simp only [tfidfFitTransform, List.map_cons, List.map_nil,
    List.flatMap_cons, List.flatMap_nil, List.drop_succ_cons, List.drop_nil,
    List.getD_cons_zero, List.getD_cons_succ, List.append_nil, List.drop_one,
    List.tail_cons, List.drop_zero]
  rw [hcos12]
  simp only [hcos01]
  simp [List.filter, hpredT, hpredF]

/-- C9: remove_fuzzy_duplicates on dfC9 forms the single group [1, 2] but
keeps record 2 and silently drops record 1 — the member with the strictly
higher combined score — because _select_best_record indexes the group list
with a dataframe position (indices[df.index.get_loc(...)]). -/
theorem remove_fuzzy_drops_best :
    removeFuzzyDuplicates dfC9 = some [recOther, recWorse] ∧
      rowScore dfC9 2 < rowScore dfC9 1 := by
  constructor
  · simp only [removeFuzzyDuplicates, duplicateGroupsOf, findSimilarJobs_dfC9]
    decide
  · decide

/-- The composite-key token sequences of dfC4: all three records share one
key. -/
theorem featTokens_dfC4 : dfC4.map featureTokens =
    [featureTokens recBest, featureTokens recBest, featureTokens recBest] := by
  decide

/-- find_similar_jobs on dfC4: every pair scores one. -/
theorem findSimilarJobs_dfC4 :
    findSimilarJobs dfC4 = [(0, 1, 1), (0, 2, 1), (1, 2, 1)] := by
  have hcos : cosineSim
      (l2normalize (tfidfRawRow dedupVectorizerParams
        [featureTokens recBest, featureTokens recBest, featureTokens recBest]
        (featureTokens recBest)))
      (l2normalize (tfidfRawRow dedupVectorizerParams
        [featureTokens recBest, featureTokens recBest, featureTokens recBest]
        (featureTokens recBest))) = 1 :=
    cosine_tfidf_self_one _ _ _ "aaa" (by decide) (by decide)
  have hpredT : decide (similarityThreshold ≤ (1 : ℝ)) = true :=
    decide_eq_true (by norm_num [similarityThreshold])
  simp only [findSimilarJobs]
  rw [featTokens_dfC4, show dfC4.length = 3 from rfl,
    show List.range 3 = [0, 1, 2] from by decide]
  simp only [tfidfFitTransform, List.map_cons, List.map_nil,
    List.flatMap_cons, List.flatMap_nil, List.drop_succ_cons, List.drop_nil,
    List.getD_cons_zero, List.getD_cons_succ, List.append_nil, List.drop_one,
    List.tail_cons, List.drop_zero]
  simp only [hcos]
  simp [List.filter, hpredT]

/-! ## Union-find chase lemmas -/

theorem getParent_set_ne (p : List Nat) (i v j : Nat) (h : i ≠ j) :
    getParent (p.set i v) j = getParent p j := by
  simp [getParent, List.getD, List.getElem?_set_ne h]

theorem getParent_set_self (p : List Nat) (i v : Nat) (h : i < p.length) :
    getParent (p.set i v) i = v := by
  simp [getParent, List.getD, List.getElem?_set_self, h]

theorem chase_of_root (p : List Nat) (x : Nat) (h : getParent p x = x) :
    ∀ f, chase f p x = x
  | 0 => rfl
  | f + 1 => by simp [chase, h]

theorem chase_succ (p : List Nat) (x : Nat) (f : Nat) :
    chase (f + 1) p x =
      if getParent p x = x then x else chase f p (getParent p x) := rfl

theorem chase_stable (p : List Nat) :
    ∀ (f : Nat) (x : Nat), getParent p (chase f p x) = chase f p x →
      ∀ g, f ≤ g → chase g p x = chase f p x := by
  intro f
  induction f with
  | zero =>
    intro x hx g _
    exact chase_of_root p x hx g
  | succ f ih =>
    intro x hx g hg
    by_cases hr : getParent p x = x
    · rw [chase_of_root p x hr, chase_of_root p x hr]
    · obtain ⟨g', rfl⟩ : ∃ g', g = g' + 1 := ⟨g - 1, by omega⟩
      rw [chase_succ, if_neg hr, chase_succ, if_neg hr]
      rw [chase_succ, if_neg hr] at hx
      exact ih (getParent p x) hx g' (by omega)

theorem chase_add (p : List Nat) :
    ∀ (f g : Nat) (x : Nat), chase (f + g) p x = chase g p (chase f p x) := by
  intro f
  induction f with
  | zero =>
    intro g x
    rw [Nat.zero_add]
    rfl
  | succ f ih =>
    intro g x
    by_cases hr : getParent p x = x
    · simp [chase_of_root p x hr]
    · have hstep : f + 1 + g = (f + g) + 1 := by omega
      rw [hstep, chase_succ, if_neg hr, ih g (getParent p x),
        chase_succ, if_neg hr]

theorem chase_lt (p : List Nat) (n : Nat)
    (hin : ∀ y, y < n → getParent p y < n) :
    ∀ (f : Nat) (x : Nat), x < n → chase f p x < n := by
  intro f
  induction f with
  | zero => intro x hx; exact hx
  | succ f ih =>
    intro x hx
    by_cases hr : getParent p x = x
    · rw [chase_succ, if_pos hr]; exact hx
    · rw [chase_succ, if_neg hr]; exact ih (getParent p x) (hin x hx)

theorem chase_repeat (p : List Nat) (x i d : Nat)
    (hrep : chase i p x = chase (i + d) p x) :
    ∀ m, i ≤ m → chase (m + d) p x = chase m p x := by
  intro m hm
  have e1 : m + d = (i + d) + (m - i) := by omega
  have e2 : i + (m - i) = m := by omega
  rw [e1, chase_add, ← hrep, ← chase_add, e2]

/-- Once any chase from x hits a fixpoint, the length-bounded chase rootOf
hits the same fixpoint: descent via pigeonhole on the first n+1 chase
values. -/
theorem chase_root_value (p : List Nat) (n : Nat) (hlen : p.length = n)
    (hin : ∀ y, y < n → getParent p y < n) (x : Nat) (hx : x < n) :
    ∀ f, getParent p (chase f p x) = chase f p x →
      getParent p (rootOf p x) = rootOf p x ∧ rootOf p x = chase f p x := by
  intro f
  induction f using Nat.strong_induction_on with
  | _ f ih =>
    intro hroot
    by_cases hfn : f ≤ n
    · have hstab := chase_stable p f x hroot n hfn
      have he : rootOf p x = chase f p x := by
        unfold rootOf
        rw [hlen, hstab]
      rw [he]
      exact ⟨hroot, rfl⟩
    · push_neg at hfn
      have hmaps : ∀ k ∈ Finset.range (n + 1),
          chase k p x ∈ Finset.range n := by
        intro k _
        exact Finset.mem_range.mpr (chase_lt p n hin k x hx)
      have hcard : (Finset.range n).card < (Finset.range (n + 1)).card := by
        simp
      obtain ⟨a, ha, b, hb, hne, heq⟩ :=
        Finset.exists_ne_map_eq_of_card_lt_of_maps_to hcard hmaps
      have han : a < n + 1 := Finset.mem_range.mp ha
      have hbn : b < n + 1 := Finset.mem_range.mp hb
      have key : ∀ i j, i < j → j ≤ n → chase i p x = chase j p x →
          getParent p (rootOf p x) = rootOf p x ∧ rootOf p x = chase f p x := by
        intro i j hij hjn hrep
        have hrep' : chase i p x = chase (i + (j - i)) p x := by
          rw [show i + (j - i) = j by omega]
          exact hrep
        have hfd : chase ((f - (j - i)) + (j - i)) p x =
            chase (f - (j - i)) p x :=
          chase_repeat p x i (j - i) hrep' (f - (j - i)) (by omega)
        rw [show (f - (j - i)) + (j - i) = f by omega] at hfd
        have hroot' : getParent p (chase (f - (j - i)) p x) =
            chase (f - (j - i)) p x := by
          rw [← hfd]
          exact hroot
        obtain ⟨h1, h2⟩ := ih (f - (j - i)) (by omega) hroot'
        exact ⟨h1, by rw [h2, ← hfd]⟩
      rcases Nat.lt_or_ge a b with hab | hab
      · exact key a b hab (by omega) heq
      · have hba : b < a := by omega
        exact key b a hba (by omega) heq.symm

/-- The bounded chase of a well-formed state ends at a fixpoint. -/
theorem goodUF_root_reach (p : List Nat) (n : Nat) (hp : GoodUF p n)
    (x : Nat) (hx : x < n) :
    getParent p (rootOf p x) = rootOf p x := by
  obtain ⟨f, hf⟩ := hp.2.2 x hx
  exact (chase_root_value p n hp.1 hp.2.1 x hx f hf).1

/-- In chase form, for use as the fuel hypothesis of the find lemmas. -/
theorem goodUF_chase_len_root (p : List Nat) (n : Nat) (hp : GoodUF p n)
    (x : Nat) (hx : x < n) :
    getParent p (chase p.length p x) = chase p.length p x :=
  goodUF_root_reach p n hp x hx

theorem rootOf_eq_of_chase_root (p : List Nat) (n : Nat) (hp : GoodUF p n)
    (x : Nat) (hx : x < n) (f : Nat)
    (hf : getParent p (chase f p x) = chase f p x) :
    rootOf p x = chase f p x :=
  (chase_root_value p n hp.1 hp.2.1 x hx f hf).2

theorem rootOf_lt (p : List Nat) (n : Nat) (hp : GoodUF p n) (x : Nat)
    (hx : x < n) : rootOf p x < n :=
  chase_lt p n hp.2.1 p.length x hx

theorem rootOf_of_root (p : List Nat) (x : Nat) (h : getParent p x = x) :
    rootOf p x = x :=
  chase_of_root p x h p.length

theorem root_of_rootOf_eq_self (p : List Nat) (n : Nat) (hp : GoodUF p n)
    (x : Nat) (hx : x < n) (he : rootOf p x = x) : getParent p x = x := by
  have := goodUF_root_reach p n hp x hx
  rwa [he] at this

theorem rootOf_getParent (p : List Nat) (n : Nat) (hp : GoodUF p n)
    (x : Nat) (hx : x < n) :
    rootOf p (getParent p x) = rootOf p x := by
  by_cases hr : getParent p x = x
  · rw [hr]
  · have hn1 : 1 ≤ p.length := by
      rw [hp.1]
      omega
    obtain ⟨m, hm⟩ : ∃ m, p.length = m + 1 := ⟨p.length - 1, by omega⟩
    have e : rootOf p x = chase m p (getParent p x) := by
      unfold rootOf
      rw [hm, chase_succ, if_neg hr]
    have hreach := goodUF_root_reach p n hp x hx
    rw [e] at hreach
    have hpx : getParent p x < n := hp.2.1 x hx
    rw [rootOf_eq_of_chase_root p n hp (getParent p x) hpx m hreach, ← e]

/-- Replacing entries by roots of the same state (what path compression
does) keeps the state well-formed and the root of every node unchanged. -/
theorem preserve_oldOrRoot (p q : List Nat) (n : Nat) (hp : GoodUF p n)
    (hlen : q.length = p.length)
    (hq : ∀ j, j < n →
      getParent q j = getParent p j ∨ getParent q j = rootOf p j) :
    GoodUF q n ∧ ∀ x, x < n → rootOf q x = rootOf p x := by
  have hrootkeep : ∀ r, r < n → getParent p r = r → getParent q r = r := by
    intro r hr hroot
    rcases hq r hr with h | h
    · rw [h, hroot]
    · rw [h, rootOf_of_root p r hroot]
  have aux : ∀ f x, x < n → getParent p (chase f p x) = chase f p x →
      ∃ g, g ≤ f ∧ chase g q x = rootOf p x := by
    intro f
    induction f with
    | zero =>
      intro x _ hroot
      exact ⟨0, le_refl 0, (rootOf_of_root p x hroot).symm⟩
    | succ f ihf =>
      intro x hx hroot
      by_cases hr : getParent p x = x
      · exact ⟨0, by omega, (rootOf_of_root p x hr).symm⟩
      · have hz : getParent p x < n := hp.2.1 x hx
        have hroot' : getParent p (chase f p (getParent p x)) =
            chase f p (getParent p x) := by
          rwa [chase_succ, if_neg hr] at hroot
        obtain ⟨g, hg, hchase⟩ := ihf (getParent p x) hz hroot'
        have hrootstep : rootOf p (getParent p x) = rootOf p x :=
          rootOf_getParent p n hp x hx
        rcases hq x hx with hold | hnew
        · refine ⟨g + 1, by omega, ?_⟩
          rw [chase_succ, hold, if_neg hr, hchase, hrootstep]
        · have hrne : rootOf p x ≠ x := by
            intro he
            exact hr (root_of_rootOf_eq_self p n hp x hx he)
          refine ⟨1, by omega, ?_⟩
          rw [chase_succ, hnew, if_neg hrne]
          rfl
  have hqlen : q.length = n := by rw [hlen, hp.1]
  have hqin : ∀ y, y < n → getParent q y < n := by
    intro y hy
    rcases hq y hy with h | h
    · rw [h]; exact hp.2.1 y hy
    · rw [h]; exact rootOf_lt p n hp y hy
  have hauxlen : ∀ x, x < n → ∃ g, g ≤ p.length ∧ chase g q x = rootOf p x :=
    fun x hx => aux p.length x hx (goodUF_chase_len_root p n hp x hx)
  have hrootq : ∀ x, x < n → getParent q (rootOf p x) = rootOf p x :=
    fun x hx =>
      hrootkeep (rootOf p x) (rootOf_lt p n hp x hx)
        (goodUF_root_reach p n hp x hx)
  have hGood : GoodUF q n := by
    refine ⟨hqlen, hqin, ?_⟩
    intro x hx
    obtain ⟨g, _, hchase⟩ := hauxlen x hx
    refine ⟨g, ?_⟩
    rw [hchase]
    exact hrootq x hx
  refine ⟨hGood, ?_⟩
  intro x hx
  obtain ⟨g, _, hchase⟩ := hauxlen x hx
  have hqchaseroot : getParent q (chase g q x) = chase g q x := by
    rw [hchase]
    exact hrootq x hx
  rw [rootOf_eq_of_chase_root q n hGood x hx g hqchaseroot, hchase]

/-- find with path compression: the returned root is the chased root, and
the compressed array only rewrites entries to roots. -/
theorem findAux_spec (p : List Nat) (n : Nat) (hp : GoodUF p n) :
    ∀ (f : Nat) (x : Nat), x < n →
      getParent p (chase f p x) = chase f p x →
      (findAux f p x).2 = chase f p x ∧
        (findAux f p x).1.length = p.length ∧
        ∀ j, j < n → getParent (findAux f p x).1 j = getParent p j ∨
          getParent (findAux f p x).1 j = rootOf p j := by
  intro f
  induction f with
  | zero =>
    intro x _ _
    exact ⟨rfl, rfl, fun j _ => Or.inl rfl⟩
  | succ f ihf =>
    intro x hx hroot
    by_cases hr : getParent p x = x
    · have e : findAux (f + 1) p x = (p, x) := by
        simp [findAux, hr]
      rw [e]
      refine ⟨?_, rfl, fun j _ => Or.inl rfl⟩
      rw [chase_succ, if_pos hr]
    · have hz : getParent p x < n := hp.2.1 x hx
      have hroot' : getParent p (chase f p (getParent p x)) =
          chase f p (getParent p x) := by
        rwa [chase_succ, if_neg hr] at hroot
      obtain ⟨hval, hlen, hold⟩ := ihf (getParent p x) hz hroot'
      have e : findAux (f + 1) p x =
          ((findAux f p (getParent p x)).1.set x
              (findAux f p (getParent p x)).2,
            (findAux f p (getParent p x)).2) := by
        simp [findAux, hr]
      rw [e]
      have hvx : (findAux f p (getParent p x)).2 = rootOf p x := by
        rw [hval, ← rootOf_eq_of_chase_root p n hp (getParent p x) hz f hroot']
        exact rootOf_getParent p n hp x hx
      refine ⟨?_, ?_, ?_⟩
      · rw [chase_succ, if_neg hr]
        exact hval
      · rw [List.length_set, hlen]
      · intro j hj
        by_cases hjx : j = x
        · subst hjx
          right
          rw [getParent_set_self _ _ _ (by rw [hlen, hp.1]; exact hj), hvx]
        · rw [getParent_set_ne _ _ _ _ (fun he => hjx he.symm)]
          exact hold j hj

/-- find(x): returns the root of x; the compressed array is well-formed
with the same root function. -/
theorem findRoot_spec (p : List Nat) (n : Nat) (hp : GoodUF p n) (x : Nat)
    (hx : x < n) :
    (findRoot p x).2 = rootOf p x ∧ GoodUF (findRoot p x).1 n ∧
      ∀ y, y < n → rootOf (findRoot p x).1 y = rootOf p y := by
  obtain ⟨hval, hlen, hold⟩ :=
    findAux_spec p n hp p.length x hx (goodUF_chase_len_root p n hp x hx)
  obtain ⟨hG, hroots⟩ := preserve_oldOrRoot p (findAux p.length p x).1 n hp
    hlen hold
  exact ⟨hval, hG, hroots⟩

/-- Linking root rx under root ry: the merged state is well-formed and the
root function maps the old rx-class to ry, leaving the rest unchanged. -/
theorem link_spec (q : List Nat) (n : Nat) (hq : GoodUF q n) (rx ry : Nat)
    (hrx : rx < n) (hry : ry < n) (hrootx : getParent q rx = rx)
    (hrooty : getParent q ry = ry) (hne : ¬rx = ry) :
    GoodUF (q.set rx ry) n ∧
      ∀ a, a < n → rootOf (q.set rx ry) a =
        if rootOf q a = rx then ry else rootOf q a := by
  have hlen' : (q.set rx ry).length = n := by
    rw [List.length_set, hq.1]
  have hgp : ∀ j, getParent (q.set rx ry) j =
      if j = rx then ry else getParent q j := by
    intro j
    by_cases hj : j = rx
    · rw [if_pos hj, hj]
      exact getParent_set_self q rx ry (by rw [hq.1]; exact hrx)
    · rw [if_neg hj]
      exact getParent_set_ne q rx ry j (fun he => hj he.symm)
  have hryroot' : getParent (q.set rx ry) ry = ry := by
    rw [hgp, if_neg (fun he => hne he.symm)]
    exact hrooty
  have hrootkeep' : ∀ r, getParent q r = r → r ≠ rx →
      getParent (q.set rx ry) r = r := by
    intro r h hr
    rw [hgp, if_neg hr]
    exact h
  have auxRoot : ∀ a, getParent q a = a →
      ∃ g, chase g (q.set rx ry) a =
        (if rootOf q a = rx then ry else rootOf q a) := by
    intro a hroot
    have hra : rootOf q a = a := rootOf_of_root q a hroot
    by_cases hax : a = rx
    · rw [hra, if_pos hax]
      have h1 : getParent (q.set rx ry) a = ry := by
        rw [hgp, if_pos hax]
      have hne' : ry ≠ a := by
        intro he
        exact hne (hax.symm.trans he.symm)
      refine ⟨1, ?_⟩
      rw [chase_succ, h1, if_neg hne']
      rfl
    · rw [hra, if_neg hax]
      exact ⟨0, rfl⟩
  have aux : ∀ f a, a < n → getParent q (chase f q a) = chase f q a →
      ∃ g, chase g (q.set rx ry) a =
        (if rootOf q a = rx then ry else rootOf q a) := by
    intro f
    induction f with
    | zero =>
      intro a _ hroot
      exact auxRoot a hroot
    | succ f ihf =>
      intro a ha hroot
      by_cases hr : getParent q a = a
      · exact auxRoot a hr
      · have hz : getParent q a < n := hq.2.1 a ha
        have hroot' : getParent q (chase f q (getParent q a)) =
            chase f q (getParent q a) := by
          rwa [chase_succ, if_neg hr] at hroot
        obtain ⟨g, hg⟩ := ihf (getParent q a) hz hroot'
        rw [rootOf_getParent q n hq a ha] at hg
        have hane : a ≠ rx := by
          intro he
          subst he
          exact hr hrootx
        refine ⟨g + 1, ?_⟩
        rw [chase_succ, hgp, if_neg hane, if_neg hr, hg]
  have htargetroot : ∀ a, a < n →
      getParent (q.set rx ry) (if rootOf q a = rx then ry else rootOf q a) =
        (if rootOf q a = rx then ry else rootOf q a) := by
    intro a ha
    by_cases hcase : rootOf q a = rx
    · rw [if_pos hcase]
      exact hryroot'
    · rw [if_neg hcase]
      exact hrootkeep' _ (goodUF_root_reach q n hq a ha) hcase
  have hin' : ∀ y, y < n → getParent (q.set rx ry) y < n := by
    intro y hy
    rw [hgp]
    by_cases h : y = rx
    · rw [if_pos h]; exact hry
    · rw [if_neg h]; exact hq.2.1 y hy
  have hGood : GoodUF (q.set rx ry) n := by
    refine ⟨hlen', hin', ?_⟩
    intro a ha
    obtain ⟨g, hg⟩ := aux q.length a ha (goodUF_chase_len_root q n hq a ha)
    refine ⟨g, ?_⟩
    rw [hg]
    exact htargetroot a ha
  refine ⟨hGood, ?_⟩
  intro a ha
  obtain ⟨g, hg⟩ := aux q.length a ha (goodUF_chase_len_root q n hq a ha)
  have hcr : getParent (q.set rx ry) (chase g (q.set rx ry) a) =
      chase g (q.set rx ry) a := by
    rw [hg]
    exact htargetroot a ha
  rw [rootOf_eq_of_chase_root (q.set rx ry) n hGood a ha g hcr, hg]

/-- union(x, y): the state stays well-formed; the class of x is merged into
the class of y and every other class is untouched. -/
theorem unionRoots_spec (p : List Nat) (n : Nat) (hp : GoodUF p n)
    (x y : Nat) (hx : x < n) (hy : y < n) :
    GoodUF (unionRoots p x y) n ∧
      ∀ a, a < n → rootOf (unionRoots p x y) a =
        if rootOf p a = rootOf p x then rootOf p y else rootOf p a := by
  obtain ⟨hv1, hg1, hr1⟩ := findRoot_spec p n hp x hx
  obtain ⟨hv2, hg2, hr2⟩ := findRoot_spec (findRoot p x).1 n hg1 y hy
  have hv2' : (findRoot (findRoot p x).1 y).2 = rootOf p y := by
    rw [hv2, hr1 y hy]
  by_cases hcase : rootOf p x = rootOf p y
  · have he : unionRoots p x y = (findRoot (findRoot p x).1 y).1 := by
      simp only [unionRoots]
      rw [hv1, hv2', hcase]
      simp
    rw [he]
    refine ⟨hg2, ?_⟩
    intro a ha
    rw [hr2 a ha, hr1 a ha]
    by_cases h : rootOf p a = rootOf p x
    · rw [if_pos h, h, hcase]
    · rw [if_neg h]
  · have he : unionRoots p x y =
        (findRoot (findRoot p x).1 y).1.set (rootOf p x) (rootOf p y) := by
      simp only [unionRoots]
      rw [hv1, hv2']
      rw [if_pos hcase]
    have hrxlt := rootOf_lt p n hp x hx
    have hrylt := rootOf_lt p n hp y hy
    have hrxroot2 : getParent (findRoot (findRoot p x).1 y).1 (rootOf p x) =
        rootOf p x := by
      apply root_of_rootOf_eq_self _ n hg2 _ hrxlt
      rw [hr2 _ hrxlt, hr1 _ hrxlt]
      exact rootOf_of_root p _ (goodUF_root_reach p n hp x hx)
    have hryroot2 : getParent (findRoot (findRoot p x).1 y).1 (rootOf p y) =
        rootOf p y := by
      apply root_of_rootOf_eq_self _ n hg2 _ hrylt
      rw [hr2 _ hrylt, hr1 _ hrylt]
      exact rootOf_of_root p _ (goodUF_root_reach p n hp y hy)
    obtain ⟨hG, hform⟩ := link_spec (findRoot (findRoot p x).1 y).1 n hg2
      (rootOf p x) (rootOf p y) hrxlt hrylt hrxroot2 hryroot2 hcase
    rw [he]
    refine ⟨hG, ?_⟩
    intro a ha
    rw [hform a ha, hr2 a ha, hr1 a ha]

/-- Folding unions keeps the state well-formed, preserves established root
equalities, and establishes the root equality of every processed pair. -/
theorem union_fold_spec (n : Nat) :
    ∀ (pairs : List (Nat × Nat)) (p : List Nat), GoodUF p n →
      (∀ ab ∈ pairs, ab.1 < n ∧ ab.2 < n) →
      GoodUF (pairs.foldl (fun q ab => unionRoots q ab.1 ab.2) p) n ∧
        (∀ a b, a < n → b < n → rootOf p a = rootOf p b →
          rootOf (pairs.foldl (fun q ab => unionRoots q ab.1 ab.2) p) a =
            rootOf (pairs.foldl (fun q ab => unionRoots q ab.1 ab.2) p) b) ∧
        ∀ ab ∈ pairs,
          rootOf (pairs.foldl (fun q ab => unionRoots q ab.1 ab.2) p) ab.1 =
            rootOf (pairs.foldl (fun q ab => unionRoots q ab.1 ab.2) p) ab.2 := by
  intro pairs
  induction pairs with
  | nil =>
    intro p hp _
    exact ⟨hp, fun a b _ _ h => h, by simp⟩
  | cons hd tl ih =>
    intro p hp hb
    obtain ⟨x, y⟩ := hd
    have hx : x < n := (hb (x, y) (List.mem_cons_self _ _)).1
    have hy : y < n := (hb (x, y) (List.mem_cons_self _ _)).2
    obtain ⟨hG1, hform⟩ := unionRoots_spec p n hp x y hx hy
    obtain ⟨hGf, hpres, hpairs⟩ := ih (unionRoots p x y) hG1
      (fun ab hab => hb ab (List.mem_cons_of_mem _ hab))
    have hfold : ((x, y) :: tl).foldl
        (fun q ab => unionRoots q ab.1 ab.2) p =
        tl.foldl (fun q ab => unionRoots q ab.1 ab.2) (unionRoots p x y) :=
      rfl
    have hpres1 : ∀ a b, a < n → b < n → rootOf p a = rootOf p b →
        rootOf (unionRoots p x y) a = rootOf (unionRoots p x y) b := by
      intro a b ha hb' h
      rw [hform a ha, hform b hb', h]
    rw [hfold]
    refine ⟨hGf, ?_, ?_⟩
    · intro a b ha hb' h
      exact hpres a b ha hb' (hpres1 a b ha hb' h)
    · intro ab hab
      rcases List.mem_cons.mp hab with rfl | htl
    -- head pair (x, y): its roots were merged by the first union
      · have h1 : rootOf (unionRoots p x y) x = rootOf p y := by
          rw [hform x hx, if_pos rfl]
        have h2 : rootOf (unionRoots p x y) y = rootOf p y := by
          rw [hform y hy]
          by_cases h : rootOf p y = rootOf p x
          · rw [if_pos h, h]
          · rw [if_neg h]
        exact hpres x y hx hy (h1.trans h2.symm)
      · exact hpairs ab htl

/-- buildParent: well-formed, with every similar pair sharing its root. -/
theorem buildParent_spec (pairs : List (Nat × Nat)) (n : Nat)
    (hb : ∀ ab ∈ pairs, ab.1 < n ∧ ab.2 < n) :
    GoodUF (buildParent pairs n) n ∧
      ∀ ab ∈ pairs, rootOf (buildParent pairs n) ab.1 =
        rootOf (buildParent pairs n) ab.2 := by
  have hinitroot : ∀ x, x < n → getParent (List.range n) x = x := by
    intro x hx
    simp [getParent, List.getD, List.getElem?_range hx]
  have hinit : GoodUF (List.range n) n := by
    refine ⟨List.length_range n, ?_, ?_⟩
    · intro x hx
      rw [hinitroot x hx]
      exact hx
    · intro x hx
      exact ⟨0, hinitroot x hx⟩
  obtain ⟨hG, _, hpairs⟩ := union_fold_spec n pairs (List.range n) hinit hb
  exact ⟨hG, hpairs⟩

/-! ## Grouping lemmas -/

/-- Appending under key r: the r entry gains i at its end. -/
theorem lookup_addToGroup_self (gs : List (Nat × List Nat)) (r i : Nat) :
    (addToGroup gs r i).lookup r = some ((gs.lookup r).getD [] ++ [i]) := by
  induction gs with
  | nil => simp [addToGroup, List.lookup]
  | cons hd tl ih =>
    obtain ⟨k, l⟩ := hd
    by_cases hk : k = r
    · subst hk
      simp [addToGroup, List.lookup]
    · have hbeq : (r == k) = false := by
        simp [Ne.symm hk]
      simp [addToGroup, hk, List.lookup, hbeq, ih]

/-- Appending under another key leaves a lookup unchanged. -/
theorem lookup_addToGroup_ne (gs : List (Nat × List Nat)) (r i k : Nat)
    (hk : k ≠ r) : (addToGroup gs r i).lookup k = gs.lookup k := by
  induction gs with
  | nil =>
    have hbeq : (k == r) = false := by simp [hk]
    simp [addToGroup, List.lookup, hbeq]
  | cons hd tl ih =>
    obtain ⟨k', l⟩ := hd
    by_cases hk' : k' = r
    · subst hk'
      have hbeq : (k == k') = false := by simp [hk]
      simp [addToGroup, List.lookup, hbeq]
    · by_cases hkk : k = k'
      · subst hkk
        simp [addToGroup, hk', List.lookup]
      · have hbeq : (k == k') = false := by simp [hkk]
        simp [addToGroup, hk', List.lookup, hbeq, ih]

/-- A looked-up entry is one of the stored groups. -/
theorem lookup_mem_values (gs : List (Nat × List Nat)) (r : Nat)
    (l : List Nat) (h : gs.lookup r = some l) :
    l ∈ gs.map (fun kl => kl.2) := by
  induction gs with
  | nil => simp [List.lookup] at h
  | cons hd tl ih =>
    obtain ⟨k, l'⟩ := hd
    by_cases hk : r = k
    · subst hk
      simp [List.lookup] at h
      simp [← h]
    · have hbeq : (r == k) = false := by simp [hk]
      simp [List.lookup, hbeq] at h
      simp [ih h]

/-- The grouping loop: existing group memberships survive, and every
processed index is recorded in the group of its root. -/
theorem collect_fold_spec (n : Nat) (p0 : List Nat) :
    ∀ (idxs : List Nat) (p : List Nat) (gs : List (Nat × List Nat)),
      GoodUF p n → (∀ y, y < n → rootOf p y = rootOf p0 y) →
      (∀ i ∈ idxs, i < n) →
      (∀ r j l, gs.lookup r = some l → j ∈ l →
        ∃ lf, (idxs.foldl (fun st i =>
            let fr := findRoot st.1 i
            (fr.1, addToGroup st.2 fr.2 i)) (p, gs)).2.lookup r = some lf ∧
          j ∈ lf) ∧
      ∀ i ∈ idxs, ∃ lf, (idxs.foldl (fun st i =>
          let fr := findRoot st.1 i
          (fr.1, addToGroup st.2 fr.2 i)) (p, gs)).2.lookup (rootOf p0 i) =
        some lf ∧ i ∈ lf := by
  intro idxs
  induction idxs with
  | nil =>
    intro p gs _ _ _
    exact ⟨fun r j l hl hj => ⟨l, hl, hj⟩, by simp⟩
  | cons i rest ih =>
    intro p gs hG hroots hbound
    have hi : i < n := hbound i (List.mem_cons_self _ _)
    obtain ⟨hval, hG', hroots'⟩ := findRoot_spec p n hG i hi
    have hval0 : (findRoot p i).2 = rootOf p0 i := by
      rw [hval, hroots i hi]
    have hstep : ((i :: rest).foldl (fun st i =>
        let fr := findRoot st.1 i
        (fr.1, addToGroup st.2 fr.2 i)) (p, gs)) =
        rest.foldl (fun st i =>
          let fr := findRoot st.1 i
          (fr.1, addToGroup st.2 fr.2 i))
          ((findRoot p i).1, addToGroup gs (rootOf p0 i) i) := by
      rw [← hval0]
      rfl
    obtain ⟨ihmono, ihmem⟩ := ih (findRoot p i).1
      (addToGroup gs (rootOf p0 i) i) hG'
      (fun y hy => (hroots' y hy).trans (hroots y hy))
      (fun j hj => hbound j (List.mem_cons_of_mem _ hj))
    have hmono : ∀ r j l, gs.lookup r = some l → j ∈ l →
        ∃ lf, (addToGroup gs (rootOf p0 i) i).lookup r = some lf ∧ j ∈ lf := by
      intro r j l hl hj
      by_cases hr : r = rootOf p0 i
      · refine ⟨(gs.lookup (rootOf p0 i)).getD [] ++ [i], ?_, ?_⟩
        · rw [hr]
          exact lookup_addToGroup_self gs _ i
        · rw [← hr, hl]
          exact List.mem_append_left _ hj
      · exact ⟨l, by rw [lookup_addToGroup_ne gs _ i r hr]; exact hl, hj⟩
    rw [hstep]
    constructor
    · intro r j l hl hj
      obtain ⟨l1, hl1, hj1⟩ := hmono r j l hl hj
      exact ihmono r j l1 hl1 hj1
    · intro j hj
      rcases List.mem_cons.mp hj with rfl | hjrest
      · have hin : j ∈ (gs.lookup (rootOf p0 j)).getD [] ++ [j] :=
          List.mem_append_right _ (List.mem_singleton_self j)
        exact ihmono (rootOf p0 j) j _ (lookup_addToGroup_self gs _ j) hin
      · exact ihmem j hjrest

/-- A list containing two distinct elements has more than one member. -/
theorem one_lt_length_of_two_mem {l : List Nat} {a b : Nat} (ha : a ∈ l)
    (hb : b ∈ l) (hne : a ≠ b) : 1 < l.length := by
  match l with
  | [] => exact absurd ha (List.not_mem_nil a)
  | [x] =>
    rw [List.mem_singleton] at ha hb
    exact absurd (ha.trans hb.symm) hne
  | x :: y :: t => simp [List.length_cons]

/-- _group_similar_jobs places any two transitively linked, distinct
records into one common group of size at least two. -/
theorem groupSimilarJobs_transitive (pairs : List (Nat × Nat)) (n : Nat)
    (a b c : Nat) (ha : a < n) (hb' : b < n) (hc : c < n)
    (hab' : rootOf (buildParent pairs n) a = rootOf (buildParent pairs n) b)
    (hbc' : rootOf (buildParent pairs n) b = rootOf (buildParent pairs n) c)
    (hG : GoodUF (buildParent pairs n) n) (hne : a ≠ b) :
    ∃ g ∈ groupSimilarJobs pairs n, a ∈ g ∧ b ∈ g ∧ c ∈ g := by
  obtain ⟨_, hmem⟩ := collect_fold_spec n (buildParent pairs n)
    (List.range n) (buildParent pairs n) [] hG (fun y _ => rfl)
    (fun i hi => List.mem_range.mp hi)
  obtain ⟨la, hla, hain⟩ := hmem a (List.mem_range.mpr ha)
  obtain ⟨lb, hlb, hbin⟩ := hmem b (List.mem_range.mpr hb')
  obtain ⟨lc, hlc, hcin⟩ := hmem c (List.mem_range.mpr hc)
  rw [hab'] at hla
  rw [← hbc'] at hlc
  have hba : lb = la := Option.some.inj (hlb.symm.trans hla)
  have hca : lc = la := Option.some.inj (hlc.symm.trans hla)
  have hbin' : b ∈ la := hba ▸ hbin
  have hcin' : c ∈ la := hca ▸ hcin
  have hlen : 1 < la.length := one_lt_length_of_two_mem hain hbin' hne
  refine ⟨la, ?_, hain, hbin', hcin'⟩
  unfold groupSimilarJobs
  refine List.mem_filter.mpr ⟨?_, decide_eq_true hlen⟩
  exact lookup_mem_values _ _ _ hla

/-- Pairs emitted by find_similar_jobs are record positions of the
dataframe. -/
theorem findSimilarJobs_bounds (df : List DedupRecord) (i j : Nat) (s : ℝ)
    (h : (i, j, s) ∈ findSimilarJobs df) :
    i < df.length ∧ j < df.length := by
  simp only [findSimilarJobs] at h
  have h' := (List.mem_filter.mp h).1
  obtain ⟨i', hi', h''⟩ := List.mem_flatMap.mp h'
  obtain ⟨j', hj', heq⟩ := List.mem_map.mp h''
  have e1 : i' = i := congrArg Prod.fst heq
  have e2 : j' = j := congrArg (fun t => t.2.1) heq
  subst e1
  subst e2
  exact ⟨List.mem_range.mp hi',
    List.mem_range.mp (List.mem_of_mem_drop hj')⟩

/-! ## Soundness of the grouping: groups only join linked records -/

/-- Every member of every group of addToGroup satisfies a per-key property
that held before and holds for the appended index. -/
theorem addToGroup_mem_spec (gs : List (Nat × List Nat)) (r i : Nat)
    (P : Nat → Nat → Prop) (hgs : ∀ kl ∈ gs, ∀ j ∈ kl.2, P kl.1 j)
    (hi : P r i) :
    ∀ kl ∈ addToGroup gs r i, ∀ j ∈ kl.2, P kl.1 j := by
  induction gs with
  | nil =>
    intro kl hkl j hj
    simp [addToGroup] at hkl
    subst hkl
    simp at hj
    subst hj
    exact hi
  | cons hd tl ih =>
    obtain ⟨k, l⟩ := hd
    by_cases hk : k = r
    · intro kl hkl j hj
      rw [addToGroup, if_pos hk] at hkl
      rcases List.mem_cons.mp hkl with rfl | htl
      · rcases List.mem_append.mp hj with hjl | hji
        · exact hgs (k, l) (List.mem_cons_self _ _) j hjl
        · rw [List.mem_singleton] at hji
          subst hji
          rw [hk]
          exact hi
      · exact hgs kl (List.mem_cons_of_mem _ htl) j hj
    · intro kl hkl j hj
      rw [addToGroup, if_neg hk] at hkl
      rcases List.mem_cons.mp hkl with rfl | htl
      · exact hgs (k, l) (List.mem_cons_self _ _) j hj
      · exact ih (fun kl' hkl' => hgs kl' (List.mem_cons_of_mem _ hkl')) kl
          htl j hj

/-- Folding unions keeps every node equivalence-related (under the full pair
list) to its root. -/
theorem union_fold_rel (n : Nat) (pairsAll : List (Nat × Nat)) :
    ∀ (pairs : List (Nat × Nat)) (p : List Nat), GoodUF p n →
      (∀ ab ∈ pairs, ab.1 < n ∧ ab.2 < n) →
      (∀ ab ∈ pairs, ab ∈ pairsAll) →
      (∀ a, a < n → Relation.EqvGen (simRel pairsAll) a (rootOf p a)) →
      ∀ a, a < n → Relation.EqvGen (simRel pairsAll) a
        (rootOf (pairs.foldl (fun q ab => unionRoots q ab.1 ab.2) p) a) := by
  intro pairs
  induction pairs with
  | nil =>
    intro p _ _ _ hinv a ha
    exact hinv a ha
  | cons hd tl ih =>
    intro p hp hb hsub hinv
    obtain ⟨x, y⟩ := hd
    have hx : x < n := (hb (x, y) (List.mem_cons_self _ _)).1
    have hy : y < n := (hb (x, y) (List.mem_cons_self _ _)).2
    obtain ⟨hG1, hform⟩ := unionRoots_spec p n hp x y hx hy
    have hinv1 : ∀ a, a < n →
        Relation.EqvGen (simRel pairsAll) a (rootOf (unionRoots p x y) a) := by
      intro a ha
      rw [hform a ha]
      by_cases hcase : rootOf p a = rootOf p x
      · have h1 : Relation.EqvGen (simRel pairsAll) a (rootOf p x) := by
          rw [← hcase]
          exact hinv a ha
        have h2 : Relation.EqvGen (simRel pairsAll) (rootOf p x) x :=
          Relation.EqvGen.symm _ _ (hinv x hx)
        have h3 : Relation.EqvGen (simRel pairsAll) x y :=
          Relation.EqvGen.rel _ _
            (Or.inl (hsub (x, y) (List.mem_cons_self _ _)))
        have h4 : Relation.EqvGen (simRel pairsAll) y (rootOf p y) :=
          hinv y hy
        rw [if_pos hcase]
        exact ((h1.trans _ _ _ h2).trans _ _ _ h3).trans _ _ _ h4
      · rw [if_neg hcase]
        exact hinv a ha
    exact ih (unionRoots p x y) hG1
      (fun ab hab => hb ab (List.mem_cons_of_mem _ hab))
      (fun ab hab => hsub ab (List.mem_cons_of_mem _ hab)) hinv1

/-- In the built parent array, every node is equivalence-related to its
root. -/
theorem buildParent_rel (pairs : List (Nat × Nat)) (n : Nat)
    (hb : ∀ ab ∈ pairs, ab.1 < n ∧ ab.2 < n) :
    ∀ a, a < n →
      Relation.EqvGen (simRel pairs) a (rootOf (buildParent pairs n) a) := by
  have hinitroot : ∀ x, x < n → getParent (List.range n) x = x := by
    intro x hx
    simp [getParent, List.getD, List.getElem?_range hx]
  have hinit : GoodUF (List.range n) n := by
    refine ⟨List.length_range n, ?_, ?_⟩
    · intro x hx
      rw [hinitroot x hx]
      exact hx
    · intro x hx
      exact ⟨0, hinitroot x hx⟩
  have hinv0 : ∀ a, a < n →
      Relation.EqvGen (simRel pairs) a (rootOf (List.range n) a) := by
    intro a ha
    rw [rootOf_of_root _ _ (hinitroot a ha)]
    exact Relation.EqvGen.refl a
  exact union_fold_rel n pairs pairs (List.range n) hinit hb
    (fun ab hab => hab) hinv0

/-- Every collected group consists of nodes below n sharing its key as
root. -/
theorem collect_fold_entries (n : Nat) (p0 : List Nat) :
    ∀ (idxs : List Nat) (p : List Nat) (gs : List (Nat × List Nat)),
      GoodUF p n → (∀ y, y < n → rootOf p y = rootOf p0 y) →
      (∀ i ∈ idxs, i < n) →
      (∀ kl ∈ gs, ∀ j ∈ kl.2, j < n ∧ rootOf p0 j = kl.1) →
      ∀ kl ∈ (idxs.foldl (fun st i =>
          let fr := findRoot st.1 i
          (fr.1, addToGroup st.2 fr.2 i)) (p, gs)).2,
        ∀ j ∈ kl.2, j < n ∧ rootOf p0 j = kl.1 := by
  intro idxs
  induction idxs with
  | nil =>
    intro p gs _ _ _ hgs
    exact hgs
  | cons i rest ih =>
    intro p gs hG hroots hbound hgs
    have hi : i < n := hbound i (List.mem_cons_self _ _)
    obtain ⟨hval, hG', hroots'⟩ := findRoot_spec p n hG i hi
    have hval0 : (findRoot p i).2 = rootOf p0 i := by
      rw [hval, hroots i hi]
    have hstep : ((i :: rest).foldl (fun st i =>
        let fr := findRoot st.1 i
        (fr.1, addToGroup st.2 fr.2 i)) (p, gs)) =
        rest.foldl (fun st i =>
          let fr := findRoot st.1 i
          (fr.1, addToGroup st.2 fr.2 i))
          ((findRoot p i).1, addToGroup gs (rootOf p0 i) i) := by
      rw [← hval0]
      rfl
    rw [hstep]
    exact ih (findRoot p i).1 (addToGroup gs (rootOf p0 i) i) hG'
      (fun y hy => (hroots' y hy).trans (hroots y hy))
      (fun j hj => hbound j (List.mem_cons_of_mem _ hj))
      (addToGroup_mem_spec gs (rootOf p0 i) i
        (fun k j => j < n ∧ rootOf p0 j = k) hgs ⟨hi, rfl⟩)

/-- Soundness of _group_similar_jobs: any two members of one emitted group
are related by the equivalence closure of the pair relation. -/
theorem groupSimilarJobs_sound (pairs : List (Nat × Nat)) (n : Nat)
    (hb : ∀ ab ∈ pairs, ab.1 < n ∧ ab.2 < n) :
    ∀ g ∈ groupSimilarJobs pairs n, ∀ x ∈ g, ∀ y ∈ g,
      Relation.EqvGen (simRel pairs) x y := by
  obtain ⟨hG, _⟩ := buildParent_spec pairs n hb
  have hentries := collect_fold_entries n (buildParent pairs n)
    (List.range n) (buildParent pairs n) [] hG (fun y _ => rfl)
    (fun i hi => List.mem_range.mp hi) (by simp)
  intro g hg x hx y hy
  have hg' := (List.mem_filter.mp hg).1
  obtain ⟨kl, hkl, rfl⟩ := List.mem_map.mp hg'
  obtain ⟨hxn, hxr⟩ := hentries kl hkl x hx
  obtain ⟨hyn, hyr⟩ := hentries kl hkl y hy
  have hroots : rootOf (buildParent pairs n) x =
      rootOf (buildParent pairs n) y := by
    rw [hxr, hyr]
  have h1 := buildParent_rel pairs n hb x hxn
  have h2 := buildParent_rel pairs n hb y hyn
  rw [hroots] at h1
  exact h1.trans _ _ _ (Relation.EqvGen.symm _ _ h2)

/-- C4: duplicate groups are exactly the nontrivial connected components of
the similarity graph. Completeness: whenever the pairs (A, B) and (B, C)
both reach the 0.85 similarity threshold — that is, both are emitted by
find_similar_jobs, in either orientation — then A, B and C land in one
DuplicateGroup of the fuzzy pass, regardless of the similarity of (A, C).
Soundness: any two members of any emitted DuplicateGroup are related by the
equivalence closure of the emitted-pair relation, so no group ever joins
records that are not transitively linked. -/
theorem fuzzy_groups_transitive (df : List DedupRecord) (a b c : Nat)
    (s1 s2 : ℝ)
    (h1 : (a, b, s1) ∈ findSimilarJobs df ∨ (b, a, s1) ∈ findSimilarJobs df)
    (h2 : (b, c, s2) ∈ findSimilarJobs df ∨ (c, b, s2) ∈ findSimilarJobs df)
    (hab : a ≠ b) :
    (∃ g ∈ duplicateGroupsOf df, a ∈ g ∧ b ∈ g ∧ c ∈ g) ∧
      ∀ g ∈ duplicateGroupsOf df, ∀ x ∈ g, ∀ y ∈ g,
        Relation.EqvGen
          (simRel ((findSimilarJobs df).map (fun t => (t.1, t.2.1)))) x y := by
  have hbounds : ∀ ab ∈ (findSimilarJobs df).map (fun t => (t.1, t.2.1)),
      ab.1 < df.length ∧ ab.2 < df.length := by
    intro ab hab'
    obtain ⟨t, ht, rfl⟩ := List.mem_map.mp hab'
    obtain ⟨t1, t2, t3⟩ := t
    exact findSimilarJobs_bounds df t1 t2 t3 ht
  obtain ⟨hG, hpairs⟩ := buildParent_spec
    ((findSimilarJobs df).map (fun t => (t.1, t.2.1))) df.length hbounds
  have hb1 : a < df.length ∧ b < df.length := by
    rcases h1 with h | h
    · exact findSimilarJobs_bounds df a b s1 h
    · exact (findSimilarJobs_bounds df b a s1 h).symm
  have hb2 : b < df.length ∧ c < df.length := by
    rcases h2 with h | h
    · exact findSimilarJobs_bounds df b c s2 h
    · exact (findSimilarJobs_bounds df c b s2 h).symm
  have hab' : rootOf (buildParent
        ((findSimilarJobs df).map (fun t => (t.1, t.2.1))) df.length) a =
      rootOf (buildParent
        ((findSimilarJobs df).map (fun t => (t.1, t.2.1))) df.length) b := by
    rcases h1 with h | h
    · exact hpairs (a, b) (List.mem_map.mpr ⟨(a, b, s1), h, rfl⟩)
    · exact (hpairs (b, a) (List.mem_map.mpr ⟨(b, a, s1), h, rfl⟩)).symm
  have hbc' : rootOf (buildParent
        ((findSimilarJobs df).map (fun t => (t.1, t.2.1))) df.length) b =
      rootOf (buildParent
        ((findSimilarJobs df).map (fun t => (t.1, t.2.1))) df.length) c := by
    rcases h2 with h | h
    · exact hpairs (b, c) (List.mem_map.mpr ⟨(b, c, s2), h, rfl⟩)
    · exact (hpairs (c, b) (List.mem_map.mpr ⟨(c, b, s2), h, rfl⟩)).symm
  unfold duplicateGroupsOf
  refine ⟨?_, ?_⟩
  · exact groupSimilarJobs_transitive _ df.length a b c hb1.1 hb1.2 hb2.2
      hab' hbc' hG hab
  · exact groupSimilarJobs_sound _ df.length hbounds

/-- Witness for C4: on the three-record dataframe dfC4 the pairs (0, 1) and
(1, 2) are similar, one DuplicateGroup holds 0, 1 and 2, and every group is
contained in one equivalence class of the emitted-pair relation. -/
theorem fuzzy_groups_transitive_witness :
    (∃ g ∈ duplicateGroupsOf dfC4, 0 ∈ g ∧ 1 ∈ g ∧ 2 ∈ g) ∧
      ∀ g ∈ duplicateGroupsOf dfC4, ∀ x ∈ g, ∀ y ∈ g,
        Relation.EqvGen
          (simRel ((findSimilarJobs dfC4).map (fun t => (t.1, t.2.1)))) x y :=
  fuzzy_groups_transitive dfC4 0 1 2 1 1
    (Or.inl (by rw [findSimilarJobs_dfC4]; simp))
    (Or.inl (by rw [findSimilarJobs_dfC4]; simp))
    (by decide)
